import Mathlib

set_option maxHeartbeats 1000000

namespace JsonUnflattening

/-- JSON-like tree value mirroring `serde_json::Value`:
`Null`, `Bool`, `Number`, `String`, `Array(Vec<Value>)`, `Object(Map<String, Value>)`.
Numbers are opaque scalars to both algorithms, so they are carried as `Int`.
Objects are association lists in insertion order.
Modelled from the spec: the serde map type preserves insertion order
(spec section 3: "the reference implementation preserves insertion order");
the crate manifest selecting that map representation is not among the sources. -/
inductive Value where
  | null : Value
  | bool : Bool → Value
  | num : Int → Value
  | str : String → Value
  | arr : List Value → Value
  | obj : List (String × Value) → Value

/-- Error enum from `src/errors.rs`. -/
inductive Error where
  | NotAnObject : Error
  | NotAValue : Error
  | InvalidProperty : Error
  | MixedTypeArray : Error
  | InvalidType : Error
  | Unspecified : Error
  | FormatError : Error
deriving DecidableEq

/-- `Value::is_object`. -/
def Value.isObj : Value → Bool
  | .obj _ => true
  | _ => false

/-- `Value::is_array`. -/
def Value.isArr : Value → Bool
  | .arr _ => true
  | _ => false

/-- Map lookup (`Map::get`): first binding of the key, if any. -/
def mapGet : List (String × Value) → String → Option Value
  | [], _ => none
  | (k, v) :: rest, key => if k = key then some v else mapGet rest key

/-- Map insert/update (`Map::insert` / `IndexMut`): replace in place when the key
is present, append at the end otherwise (insertion-order map semantics). -/
def mapSet : List (String × Value) → String → Value → List (String × Value)
  | [], key, v => [(key, v)]
  | (k, w) :: rest, key, v =>
    if k = key then (key, v) :: rest else (k, w) :: mapSet rest key v

/-- The flat map type: `serde_json::Map<String, Value>` in insertion order. -/
abbrev FlatMap := List (String × Value)

/-- One decimal digit as a character (for `d < 10`). -/
def digitChar (d : Nat) : Char := Char.ofNat (48 + d)

/-- Decimal digit string of a natural number, most significant digit first:
the model of Rust's `Display` for `usize` used by `format!("{}[{}]", _, i)`. -/
def natDigits (n : Nat) : List Char :=
  if _h : n < 10 then [digitChar n]
  else natDigits (n / 10) ++ [digitChar (n % 10)]
decreasing_by exact Nat.div_lt_self (by omega) (by omega)

/-- `flatten_value` from `src/flattening.rs`: insert a scalar under a computed
path; on collision push onto an existing array, or merge into a 2-array. -/
def flatten_value (result : FlatMap) (property : String) (val : Value) :
    Except Error FlatMap :=
  if val.isObj || val.isArr then
    .error .NotAValue
  else
    match mapGet result property with
    | some v =>
      match v with
      | .arr existing => .ok (mapSet result property (.arr (existing ++ [val])))
      | _ => .ok (mapSet result property (.arr [v, val]))
    | none => .ok (result ++ [(property, val)])

mutual

/-- `flatten_object` from `src/flattening.rs`. -/
def flatten_object (result : FlatMap) (property : Option String)
    (nested_json : List (String × Value)) : Except Error FlatMap :=
  match nested_json with
  | [] => .ok result
  | (prop, value) :: rest =>
    let flattened_prop :=
      match property with
      | none => prop
      | some parent_key => parent_key ++ "." ++ prop
    match
      (match value with
       | .arr array => flatten_array result flattened_prop array 0
       | .obj sub_json => flatten_object result (some flattened_prop) sub_json
       | _ => flatten_value result flattened_prop value) with
    | .error e => .error e
    | .ok result1 => flatten_object result1 property rest

/-- `flatten_array` from `src/flattening.rs`; the `enumerate` loop is modelled
with an explicit starting index (the source call site starts at 0). -/
def flatten_array (result : FlatMap) (property : String)
    (array : List Value) (i : Nat) : Except Error FlatMap :=
  match array with
  | [] => .ok result
  | value :: rest =>
    let flattened_prop := property ++ "[" ++ String.mk (natDigits i) ++ "]"
    match
      (match value with
       | .obj sub_json => flatten_object result (some flattened_prop) sub_json
       | .arr sub_array => flatten_array result flattened_prop sub_array 0
       | _ => flatten_value result flattened_prop value) with
    | .error e => .error e
    | .ok result1 => flatten_array result1 property rest (i + 1)

end

/-- `flatten` from `src/flattening.rs`. -/
def flatten (value : Value) : Except Error FlatMap :=
  match value with
  | .obj map => if map.isEmpty then .ok [] else flatten_object [] none map
  | _ => .error .NotAnObject

/-- The three characters `.`, `[`, `]` excluded by the character class
`[^.\[\]]` of the path regex in `src/unflattening.rs`. -/
def isSep (c : Char) : Bool := c = '.' || c = '[' || c = ']'

/-- Negation of `isSep`, the character class `[^.\[\]]` itself. -/
def notSep (c : Char) : Bool := !isSep c

/-- ASCII decimal digit, the model of the regex class `\d` (the paths arising
in this development are ASCII, where `\d` coincides with `0`-`9`). -/
def isDigitC (c : Char) : Bool := 48 ≤ c.toNat && c.toNat ≤ 57

/-- One token produced by the path regex `\.?([^.\[\]]+)|\[(\d+)\]`:
capture group 1 (an object key) or capture group 2 (a bracketed index). -/
inductive Seg where
  | key : List Char → Seg
  | idx : List Char → Seg

/-- The captured text of a token (`m.as_str()`), which becomes `property`. -/
def Seg.text : Seg → String
  | .key cs => String.mk cs
  | .idx cs => String.mk cs

/-- Whether capture group 2 matched (`c2.is_some()`). -/
def Seg.isIdx : Seg → Bool
  | .idx _ => true
  | .key _ => false

/-- The fresh child container built from the lookahead token:
`Value::Array(vec![])` when group 2 matched, else `Value::Object(Map::new())`. -/
def Seg.childInit : Seg → Value
  | .idx _ => .arr []
  | .key _ => .obj []

/-- `regex.captures_iter` over the path, for `\.?([^.\[\]]+)|\[(\d+)\]`:
successive non-overlapping leftmost matches, first alternative preferred,
greedy runs; positions where neither alternative matches are skipped. -/
def tokenize : List Char → List Seg
  | [] => []
  | c :: cs =>
    if notSep c then
      .key (c :: cs.takeWhile notSep) :: tokenize (cs.dropWhile notSep)
    else if c = '.' then
      match cs with
      | [] => []
      | d :: ds =>
        if notSep d then
          .key (d :: ds.takeWhile notSep) :: tokenize (ds.dropWhile notSep)
        else
          tokenize (d :: ds)
    else if c = '[' then
      if (cs.takeWhile isDigitC).isEmpty = false ∧
          (cs.dropWhile isDigitC).head? = some ']' then
        .idx (cs.takeWhile isDigitC) :: tokenize (cs.dropWhile isDigitC).tail
      else tokenize cs
    else
      tokenize cs
termination_by l => l.length
decreasing_by
  all_goals simp_wf
  all_goals
    first
    | omega
    | (refine Nat.lt_of_le_of_lt (List.Sublist.length_le (List.dropWhile_sublist _)) ?_
       omega)
    | (exact Nat.lt_of_le_of_lt (Nat.sub_le _ _)
        (Nat.lt_succ_of_le (List.Sublist.length_le (List.dropWhile_sublist _))))

/-- `usize::MAX` on a 64-bit target. -/
def USIZE_MAX : Nat := 18446744073709551615

/-- Accumulate the numeric value of a run of decimal digits. -/
def digitsToNat (acc : Nat) : List Char → Nat
  | [] => acc
  | c :: cs => digitsToNat (acc * 10 + (c.toNat - 48)) cs

/-- Model of `str::parse::<usize>()`: an optional leading `+`, then at least
one ASCII digit, and the value must fit in `usize`. -/
def parseUsize (s : String) : Option Nat :=
  let cs := if s.data.head? = some '+' then s.data.tail else s.data
  if cs.isEmpty then none
  else if cs.all isDigitC then
    let n := digitsToNat 0 cs
    if n ≤ USIZE_MAX then some n else none
  else none

/-- The per-path walk of `unflatten` (`src/unflattening.rs`): one recursive
step per token models one iteration of the `captures_iter` loop (acting with
the previous `property`, then updating it to the token's text), and the
empty-token case models the final leaf insertion after the loop. -/
def descend (cur : Value) (property : String) (segs : List Seg)
    (value : Value) : Except Error Value :=
  match segs with
  | [] =>
    match cur with
    | .arr a => .ok (.arr (a ++ [value]))
    | .obj o => .ok (.obj (mapSet o property value))
    | _ => .error .InvalidType
  | seg :: rest =>
    let child := seg.childInit
    match cur with
    | .arr a =>
      match parseUsize property with
      | none => .error .InvalidProperty
      | some index =>
        let a1 := if index < a.length then a else a ++ [child]
        match a1.get? index with
        | none => .error .FormatError
        | some sub =>
          match descend sub seg.text rest value with
          | .error e => .error e
          | .ok sub1 => .ok (.arr (a1.set index sub1))
    | .obj o =>
      let o1 := match mapGet o property with
        | some _ => o
        | none => o ++ [(property, child)]
      match mapGet o1 property with
      | none => .error .Unspecified
      | some sub =>
        match descend sub seg.text rest value with
        | .error e => .error e
        | .ok sub1 => .ok (.obj (mapSet o1 property sub1))
    | _ => .error .InvalidType

/-- The `for (p, value) in data` loop of `unflatten`, threading the output
root through the per-path walks. -/
def unflattenFold (output : Value) : List (String × Value) → Except Error Value
  | [] => .ok output
  | (p, value) :: rest =>
    match descend output "" (tokenize p.data) value with
    | .error e => .error e
    | .ok output1 => unflattenFold output1 rest

/-- `Value::get` with a string key: a lookup on objects, `None` otherwise. -/
def valueGet (v : Value) (key : String) : Option Value :=
  match v with
  | .obj o => mapGet o key
  | _ => none

/-- `unflatten` from `src/unflattening.rs`. -/
def unflatten (data : List (String × Value)) : Except Error Value :=
  match unflattenFold (.obj []) data with
  | .error e => .error e
  | .ok output =>
    match valueGet output "" with
    | some v => .ok v
    | none => .error .InvalidProperty

/-! ### Specification-side helpers used by the proofs -/

/-- The `unflatten` loop restated over already-tokenized entries. -/
def foldEntries (cur : Value) (property : String) :
    List (List Seg × Value) → Except Error Value
  | [] => .ok cur
  | (segs, leaf) :: rest =>
    match descend cur property segs leaf with
    | .error e => .error e
    | .ok cur1 => foldEntries cur1 property rest

/-- The child slot named `p` of a container (object key, or array position
named by the parsed index). -/
def slotAt : Value → String → Option Value
  | .obj o, p => mapGet o p
  | .arr a, p =>
    match parseUsize p with
    | some i => a.get? i
    | none => none
  | _, _ => none

/-- The slot `p` does not exist yet but the next write will create it:
an absent object key, or the index one past the end of an array. -/
def slotFresh : Value → String → Prop
  | .obj o, p => mapGet o p = none
  | .arr a, p => parseUsize p = some a.length
  | _, _ => False

/-- Overwrite the slot `p` of a container. -/
def slotSet : Value → String → Value → Value
  | .obj o, p, x => .obj (mapSet o p x)
  | .arr a, p, x =>
    match parseUsize p with
    | some i => .arr (a.set i x)
    | none => .arr a
  | v, _, _ => v

/-- Create the slot `p` of a container with content `x`. -/
def slotAppend : Value → String → Value → Value
  | .obj o, p, x => .obj (o ++ [(p, x)])
  | .arr a, _, x => .arr (a ++ [x])
  | v, _, _ => v

/-- Rendering of a segment sequence as path characters, every segment with
its separator (`.key` or `[idx]`); this is the shape `flatten` emits for all
segments after the first. -/
def renderChars : List Seg → List Char
  | [] => []
  | .key k :: rest => '.' :: (k ++ renderChars rest)
  | .idx d :: rest => '[' :: (d ++ ']' :: renderChars rest)

/-- Rendering of a whole path: the leading segment of a `flatten` path is a
bare top-level object key, the rest carry their separators. -/
def renderFirst : List Seg → List Char
  | .key k :: rest => k ++ renderChars rest
  | segs => renderChars segs

mutual

/-- The relative flattened entries of a value: for each leaf, the segment
sequence addressing it together with the leaf itself. -/
def relEntries : Value → List (List Seg × Value)
  | .arr l => relEntriesA 0 l
  | .obj o => relEntriesO o
  | v => [([], v)]

/-- Entries of the elements of an array, indices starting at `i`. -/
def relEntriesA (i : Nat) : List Value → List (List Seg × Value)
  | [] => []
  | v :: rest =>
    (relEntries v).map (fun e => (Seg.idx (natDigits i) :: e.1, e.2)) ++
      relEntriesA (i + 1) rest

/-- Entries of the members of an object. -/
def relEntriesO : List (String × Value) → List (List Seg × Value)
  | [] => []
  | (k, v) :: rest =>
    (relEntries v).map (fun e => (Seg.key k.data :: e.1, e.2)) ++
      relEntriesO rest

end

/-- An object key that survives the path round-trip: nonempty and free of
the separator characters `.`, `[`, `]`. -/
def goodKey (s : String) : Bool :=
  !s.data.isEmpty && s.data.all notSep

/-- No key occurs twice (serde maps cannot hold duplicate keys). -/
def nodupKeys : List (String × Value) → Bool
  | [] => true
  | (k, _) :: rest => (mapGet rest k).isNone && nodupKeys rest

mutual

/-- The well-formed tree class of the round-trip statement: scalars are
always fine; containers are nonempty (empty ones vanish under `flatten`),
arrays fit in `usize`, object keys are round-trippable and distinct. -/
def wfV : Value → Bool
  | .arr l => !l.isEmpty && decide (l.length ≤ USIZE_MAX) && wfL l
  | .obj o => !o.isEmpty && nodupKeys o && wfO o
  | _ => true

/-- `wfV` on every element of an array. -/
def wfL : List Value → Bool
  | [] => true
  | v :: rest => wfV v && wfL rest

/-- Key goodness and `wfV` on every member of an object. -/
def wfO : List (String × Value) → Bool
  | [] => true
  | (k, v) :: rest => goodKey k && wfV v && wfO rest

end

/-- Validity of a token for exact re-tokenization: a key is nonempty and
separator-free, an index is a nonempty digit run. -/
def goodSeg : Seg → Bool
  | .key k => !k.isEmpty && k.all notSep
  | .idx d => !d.isEmpty && d.all isDigitC

/-- The shared child dispatch of `flatten_object` and `flatten_array`:
arrays and objects recurse, anything else is inserted as a leaf. -/
def flattenChild (result : FlatMap) (pfx : String) (v : Value) :
    Except Error FlatMap :=
  match v with
  | .arr array => flatten_array result pfx array 0
  | .obj sub_json => flatten_object result (some pfx) sub_json
  | _ => flatten_value result pfx v

/-- The flat map `flatten` produces for a (well-formed) top-level value. -/
def flatEntries (v : Value) : FlatMap :=
  (relEntries v).map (fun e => (String.mk (renderFirst e.1), e.2))

/-! ### Lemmas about maps and lists -/

theorem string_mk_data (s : String) : String.mk s.data = s := rfl

theorem mapGet_append_of_none {m1 : FlatMap} {k : String}
    (h : mapGet m1 k = none) (m2 : FlatMap) :
    mapGet (m1 ++ m2) k = mapGet m2 k := by
  induction m1 with
  | nil => rfl
  | cons hd tl ih =>
    obtain ⟨k1, v1⟩ := hd
    by_cases hk : k1 = k
    · simp [mapGet, hk] at h
    · simp only [mapGet, hk, if_false, List.cons_append] at h ⊢
      exact ih h

theorem mapGet_mapSet_self (m : FlatMap) (k : String) (x : Value) :
    mapGet (mapSet m k x) k = some x := by
  induction m with
  | nil => simp [mapSet, mapGet]
  | cons hd tl ih =>
    obtain ⟨k1, v1⟩ := hd
    by_cases hk : k1 = k
    · simp [mapSet, hk, mapGet]
    · simp [mapSet, hk, mapGet, ih]

theorem mapSet_fresh {m : FlatMap} {k : String} (h : mapGet m k = none)
    (x : Value) : mapSet m k x = m ++ [(k, x)] := by
  induction m with
  | nil => rfl
  | cons hd tl ih =>
    obtain ⟨k1, v1⟩ := hd
    by_cases hk : k1 = k
    · simp [mapGet, hk] at h
    · simp only [mapGet, hk, if_false] at h
      simp [mapSet, hk, ih h]

theorem mapSet_append_fresh {m : FlatMap} {k : String} (h : mapGet m k = none)
    (x y : Value) : mapSet (m ++ [(k, x)]) k y = m ++ [(k, y)] := by
  induction m with
  | nil => simp [mapSet]
  | cons hd tl ih =>
    obtain ⟨k1, v1⟩ := hd
    by_cases hk : k1 = k
    · simp [mapGet, hk] at h
    · simp only [mapGet, hk, if_false] at h
      simp [mapSet, hk, ih h]

theorem mapSet_mapSet (m : FlatMap) (k : String) (x y : Value) :
    mapSet (mapSet m k x) k y = mapSet m k y := by
  induction m with
  | nil => simp [mapSet]
  | cons hd tl ih =>
    obtain ⟨k1, v1⟩ := hd
    by_cases hk : k1 = k
    · simp [mapSet, hk]
    · simp [mapSet, hk, ih]

theorem mapSet_same {m : FlatMap} {k : String} {c : Value}
    (h : mapGet m k = some c) : mapSet m k c = m := by
  induction m with
  | nil => simp [mapGet] at h
  | cons hd tl ih =>
    obtain ⟨k1, v1⟩ := hd
    by_cases hk : k1 = k
    · simp only [mapGet, hk, if_true] at h
      obtain rfl := Option.some.inj h
      simp [mapSet, hk]
    · simp only [mapGet, hk, if_false] at h
      simp [mapSet, hk, ih h]

theorem mapGet_ne_none_of_mem {m : FlatMap} {k : String} {v : Value}
    (h : (k, v) ∈ m) : mapGet m k ≠ none := by
  induction m with
  | nil => simp at h
  | cons hd tl ih =>
    obtain ⟨k1, v1⟩ := hd
    by_cases hk : k1 = k
    · simp [mapGet, hk]
    · simp only [mapGet, hk, if_false]
      rcases List.mem_cons.mp h with h1 | h1
      · exact absurd (congrArg Prod.fst h1).symm hk
      · exact ih h1

theorem list_set_self {l : List Value} {i : Nat} {c : Value}
    (h : l.get? i = some c) : l.set i c = l := by
  induction l generalizing i with
  | nil => simp [List.get?] at h
  | cons hd tl ih =>
    cases i with
    | zero => simp [List.get?] at h; simp [h]
    | succ j => simp only [List.get?] at h; simp [ih h]

theorem list_set_concat_length (l : List Value) (x y : Value) :
    (l ++ [x]).set l.length y = l ++ [y] := by
  induction l with
  | nil => rfl
  | cons hd tl ih => simp [ih]

/-! ### Lemmas about slots -/

theorem slotAt_slotSet {cur : Value} {p : String} {c : Value}
    (h : slotAt cur p = some c) (x : Value) :
    slotAt (slotSet cur p x) p = some x := by
  cases cur with
  | obj o => simpa [slotAt, slotSet] using mapGet_mapSet_self o p x
  | arr a =>
    rcases hp : parseUsize p with _ | i
    · simp [slotAt, hp] at h
    · simp only [slotAt, hp] at h
      have hi : i < a.length := by
        by_contra hge
        rw [List.get?_eq_getElem?, List.getElem?_eq_none (by omega)] at h
        exact Option.noConfusion h
      simp [slotAt, slotSet, hp, List.get?_eq_getElem?,
        List.getElem?_set_self (by simpa using hi)]
  | null => simp [slotAt] at h
  | bool b => simp [slotAt] at h
  | num n => simp [slotAt] at h
  | str s => simp [slotAt] at h

theorem slotSet_slotSet (cur : Value) (p : String) (x y : Value) :
    slotSet (slotSet cur p x) p y = slotSet cur p y := by
  cases cur with
  | obj o => simp [slotSet, mapSet_mapSet]
  | arr a =>
    rcases hp : parseUsize p with _ | i
    · simp [slotSet, hp]
    · simp [slotSet, hp, List.set_set]
  | null => rfl
  | bool b => rfl
  | num n => rfl
  | str s => rfl

theorem slotSet_self {cur : Value} {p : String} {c : Value}
    (h : slotAt cur p = some c) : slotSet cur p c = cur := by
  cases cur with
  | obj o => simp only [slotAt] at h; simp [slotSet, mapSet_same h]
  | arr a =>
    rcases hp : parseUsize p with _ | i
    · simp [slotAt, hp] at h
    · simp only [slotAt, hp] at h
      simp [slotSet, hp, list_set_self h]
  | null => simp [slotAt] at h
  | bool b => simp [slotAt] at h
  | num n => simp [slotAt] at h
  | str s => simp [slotAt] at h

theorem slotAppend_arr (a : List Value) (p : String) (x : Value) :
    slotAppend (.arr a) p x = .arr (a ++ [x]) := rfl

theorem slotAppend_obj (o : List (String × Value)) (p : String) (x : Value) :
    slotAppend (.obj o) p x = .obj (o ++ [(p, x)]) := rfl

theorem slotAt_slotAppend {cur : Value} {p : String}
    (h : slotFresh cur p) (x : Value) :
    slotAt (slotAppend cur p x) p = some x := by
  cases cur with
  | obj o =>
    simp only [slotFresh] at h
    simp [slotAt, slotAppend, mapGet_append_of_none h, mapGet]
  | arr a =>
    simp only [slotFresh] at h
    simp [slotAt, slotAppend, h, List.get?_eq_getElem?, List.getElem?_concat_length]
  | null => simp [slotFresh] at h
  | bool b => simp [slotFresh] at h
  | num n => simp [slotFresh] at h
  | str s => simp [slotFresh] at h

theorem slotSet_slotAppend {cur : Value} {p : String}
    (h : slotFresh cur p) (x y : Value) :
    slotSet (slotAppend cur p x) p y = slotAppend cur p y := by
  cases cur with
  | obj o =>
    simp only [slotFresh] at h
    simp [slotSet, slotAppend, mapSet_append_fresh h]
  | arr a =>
    simp only [slotFresh] at h
    simp [slotSet, slotAppend, h, list_set_concat_length]
  | null => simp [slotFresh] at h
  | bool b => simp [slotFresh] at h
  | num n => simp [slotFresh] at h
  | str s => simp [slotFresh] at h

/-! ### Step lemmas for the unflatten walk -/

theorem exceptMap_congr {r : Except Error Value} {f g : Value → Value}
    (h : ∀ x, f x = g x) : r.map f = r.map g := by
  cases r <;> simp [Except.map, h]

/-- When the slot named by the pending `property` already holds a child, one
loop iteration descends into that child and writes the recursive result back
over it; the freshly allocated container for the lookahead is discarded. -/
theorem descend_cons_present {cur : Value} {p : String} {c : Value}
    (h : slotAt cur p = some c) (t : Seg) (ts : List Seg) (leaf : Value) :
    descend cur p (t :: ts) leaf =
      (descend c t.text ts leaf).map (slotSet cur p) := by
  cases cur with
  | obj o =>
    simp only [slotAt] at h
    rcases hr : descend c t.text ts leaf with e | sub1 <;>
      simp [descend, h, hr, Except.map, slotSet]
  | arr a =>
    rcases hp : parseUsize p with _ | i
    · simp [slotAt, hp] at h
    · simp only [slotAt, hp] at h
      have hi : i < a.length := by
        by_contra hge
        rw [List.get?_eq_getElem?, List.getElem?_eq_none (by omega)] at h
        exact Option.noConfusion h
      have hag : a[i] = c := by
        rw [List.get?_eq_getElem?, List.getElem?_eq_getElem hi] at h
        exact Option.some.inj h
      rcases hr : descend c t.text ts leaf with e | sub1 <;>
        simp [descend, hp, hi, h, hag, hr, Except.map, slotSet]
  | null => simp [slotAt] at h
  | bool b => simp [slotAt] at h
  | num n => simp [slotAt] at h
  | str s => simp [slotAt] at h

/-- When the slot named by the pending `property` does not exist yet, one
loop iteration creates it as the empty container dictated by the lookahead
token, then descends into it. -/
theorem descend_cons_fresh {cur : Value} {p : String}
    (h : slotFresh cur p) (t : Seg) (ts : List Seg) (leaf : Value) :
    descend cur p (t :: ts) leaf =
      (descend t.childInit t.text ts leaf).map (slotAppend cur p) := by
  cases cur with
  | obj o =>
    simp only [slotFresh] at h
    have hget : mapGet (o ++ [(p, t.childInit)]) p = some t.childInit := by
      simp [mapGet_append_of_none h, mapGet]
    rcases hr : descend t.childInit t.text ts leaf with e | sub1 <;>
      simp [descend, h, hget, hr, Except.map, slotAppend, mapSet_append_fresh h]
  | arr a =>
    simp only [slotFresh] at h
    have hget : (a ++ [t.childInit]).get? a.length = some t.childInit := by
      simp [List.get?_eq_getElem?, List.getElem?_concat_length]
    rcases hr : descend t.childInit t.text ts leaf with e | sub1 <;>
      simp [descend, h, hget, hr, Except.map, slotAppend, list_set_concat_length]
  | null => simp [slotFresh] at h
  | bool b => simp [slotFresh] at h
  | num n => simp [slotFresh] at h
  | str s => simp [slotFresh] at h

/-- Processing a concatenation of entry blocks is processing them in turn. -/
theorem foldEntries_append (cur : Value) (p : String)
    (es1 es2 : List (List Seg × Value)) :
    foldEntries cur p (es1 ++ es2) =
      match foldEntries cur p es1 with
      | .error e => .error e
      | .ok cur1 => foldEntries cur1 p es2 := by
  induction es1 generalizing cur with
  | nil => simp [foldEntries]
  | cons hd tl ih =>
    obtain ⟨segs, leaf⟩ := hd
    rcases hr : descend cur p segs leaf with e | cur1 <;>
      simp [foldEntries, hr, ih]

/-- Lifting a block of entries that all start with the same token through an
existing child: the whole block acts inside that child. -/
theorem liftPresent {es : List (List Seg × Value)} {cur : Value} {p : String}
    {c : Value} (h : slotAt cur p = some c) (t : Seg) :
    foldEntries cur p (es.map (fun e => (t :: e.1, e.2))) =
      (foldEntries c t.text es).map (slotSet cur p) := by
  induction es generalizing cur c with
  | nil => simp [foldEntries, Except.map, slotSet_self h]
  | cons hd tl ih =>
    obtain ⟨segs, leaf⟩ := hd
    rcases hr : descend c t.text segs leaf with e | c1
    · simp [foldEntries, descend_cons_present h, hr, Except.map]
    · simp only [List.map_cons, foldEntries, descend_cons_present h, hr,
        Except.map]
      rw [ih (slotAt_slotSet h c1)]
      exact exceptMap_congr (fun x => slotSet_slotSet cur p c1 x)

/-- Lifting a block of entries that all start with the same token through a
still missing child: the first entry creates it as the empty container of
the token's kind, and the block then acts inside it. -/
theorem liftFresh {es : List (List Seg × Value)} {cur : Value} {p : String}
    (h : slotFresh cur p) (t : Seg) (hne : es ≠ []) :
    foldEntries cur p (es.map (fun e => (t :: e.1, e.2))) =
      (foldEntries t.childInit t.text es).map (slotAppend cur p) := by
  obtain ⟨⟨segs, leaf⟩, tl, rfl⟩ : ∃ hd tl, es = hd :: tl := by
    cases es with
    | nil => exact absurd rfl hne
    | cons hd tl => exact ⟨hd, tl, rfl⟩
  rcases hr : descend t.childInit t.text segs leaf with e | c1
  · simp [foldEntries, descend_cons_fresh h, hr, Except.map]
  · simp only [List.map_cons, foldEntries, descend_cons_fresh h, hr,
      Except.map]
    rw [liftPresent (slotAt_slotAppend h c1) t]
    exact exceptMap_congr (fun x => slotSet_slotAppend h c1 x)

/-! ### Decimal rendering and parsing -/

theorem digitChar_isDigit : ∀ d : Nat, d < 10 → isDigitC (digitChar d) = true := by
  decide

theorem digitChar_toNat : ∀ d : Nat, d < 10 → (digitChar d).toNat = 48 + d := by
  decide

theorem natDigits_ne_nil (n : Nat) : natDigits n ≠ [] := by
  rw [natDigits]
  split
  · simp
  · simp

theorem natDigits_all_digits (n : Nat) :
    ∀ c ∈ natDigits n, isDigitC c = true := by
  induction n using Nat.strong_induction_on with
  | _ n ih =>
    rw [natDigits]
    split
    next h =>
      intro c hc
      simp only [List.mem_singleton] at hc
      exact hc ▸ digitChar_isDigit n h
    next h =>
      intro c hc
      rcases List.mem_append.mp hc with h1 | h1
      · exact ih (n / 10) (Nat.div_lt_self (by omega) (by omega)) c h1
      · simp only [List.mem_singleton] at h1
        exact h1 ▸ digitChar_isDigit (n % 10) (Nat.mod_lt n (by omega))

theorem digitsToNat_append (acc : Nat) (xs ys : List Char) :
    digitsToNat acc (xs ++ ys) = digitsToNat (digitsToNat acc xs) ys := by
  induction xs generalizing acc with
  | nil => rfl
  | cons c cs ih =>
    show digitsToNat (acc * 10 + (c.toNat - 48)) (cs ++ ys) = _
    rw [ih]
    rfl

theorem digitsToNat_natDigits (n : Nat) : digitsToNat 0 (natDigits n) = n := by
  suffices h : ∀ m acc, digitsToNat acc (natDigits m) = acc * 10 ^ (natDigits m).length + m by
    have := h n 0
    omega
  intro m
  induction m using Nat.strong_induction_on with
  | _ m ih =>
    intro acc
    rw [natDigits]
    split
    next h =>
      have e1 : digitsToNat acc [digitChar m] =
          acc * 10 + ((digitChar m).toNat - 48) := rfl
      rw [e1, digitChar_toNat m h]
      simp only [List.length_singleton, Nat.pow_one]
      omega
    next h =>
      rw [digitsToNat_append, ih (m / 10) (Nat.div_lt_self (by omega) (by omega))]
      have e1 : digitsToNat (acc * 10 ^ (natDigits (m / 10)).length + m / 10)
            [digitChar (m % 10)] =
          (acc * 10 ^ (natDigits (m / 10)).length + m / 10) * 10 +
            ((digitChar (m % 10)).toNat - 48) := rfl
      rw [e1, digitChar_toNat (m % 10) (Nat.mod_lt m (by omega))]
      simp only [List.length_append, List.length_singleton]
      rw [Nat.pow_succ, Nat.add_mul, Nat.mul_assoc]
      omega

theorem parseUsize_spec {s : String} (hne : s.data ≠ [])
    (hdig : ∀ c ∈ s.data, isDigitC c = true)
    (hle : digitsToNat 0 s.data ≤ USIZE_MAX) :
    parseUsize s = some (digitsToNat 0 s.data) := by
  have hplus : ¬s.data.head? = some '+' := by
    cases hd : s.data with
    | nil => simp
    | cons c cs1 =>
      have hc := hdig c (hd ▸ List.mem_cons_self c cs1)
      simp only [List.head?_cons]
      intro h
      obtain rfl := Option.some.inj h
      simp [isDigitC] at hc
  have hempty : s.data.isEmpty = false := by
    cases hd : s.data with
    | nil => exact absurd hd hne
    | cons c cs1 => rfl
  have hall : s.data.all isDigitC = true := List.all_eq_true.mpr hdig
  simp only [parseUsize, hplus, if_false, hempty, Bool.false_eq_true, hall,
    if_true, hle]

theorem parseUsize_natDigits {n : Nat} (h : n ≤ USIZE_MAX) :
    parseUsize (String.mk (natDigits n)) = some n := by
  have hd : (String.mk (natDigits n)).data = natDigits n := rfl
  rw [parseUsize_spec (by rw [hd]; exact natDigits_ne_nil n)
      (by rw [hd]; exact natDigits_all_digits n)
      (by rw [hd, digitsToNat_natDigits]; exact h),
    hd, digitsToNat_natDigits]

theorem natDigits_injective {m n : Nat} (h : natDigits m = natDigits n) :
    m = n := by
  have := digitsToNat_natDigits m
  rw [h, digitsToNat_natDigits] at this
  omega

/-! ### Well-formedness helpers -/

theorem seg_text_key (cs : List Char) : Seg.text (.key cs) = String.mk cs := rfl

theorem seg_text_idx (ds : List Char) : Seg.text (.idx ds) = String.mk ds := rfl

theorem wfL_mem {l : List Value} {v : Value} (h : wfL l = true) (hm : v ∈ l) :
    wfV v = true := by
  induction l with
  | nil => simp at hm
  | cons hd tl ih =>
    simp only [wfL, Bool.and_eq_true] at h
    rcases List.mem_cons.mp hm with rfl | hm1
    · exact h.1
    · exact ih h.2 hm1

theorem wfO_mem {o : List (String × Value)} {k : String} {v : Value}
    (h : wfO o = true) (hm : (k, v) ∈ o) :
    goodKey k = true ∧ wfV v = true := by
  induction o with
  | nil => simp at hm
  | cons hd tl ih =>
    obtain ⟨k1, v1⟩ := hd
    simp only [wfO, Bool.and_eq_true] at h
    rcases List.mem_cons.mp hm with heq | hm1
    · simp only [Prod.mk.injEq] at heq
      obtain ⟨rfl, rfl⟩ := heq
      exact ⟨h.1.1, h.1.2⟩
    · exact ih h.2 hm1

theorem sizeOf_mem_arr {l : List Value} {v : Value} (hm : v ∈ l) :
    sizeOf v < sizeOf (Value.arr l) := by
  have h1 := List.sizeOf_lt_of_mem hm
  have h2 : sizeOf (Value.arr l) = 1 + sizeOf l := by simp
  omega

theorem sizeOf_mem_obj {o : List (String × Value)} {k : String} {v : Value}
    (hm : (k, v) ∈ o) : sizeOf v < sizeOf (Value.obj o) := by
  have h1 := List.sizeOf_lt_of_mem hm
  have h2 : sizeOf (k, v) = 1 + sizeOf k + sizeOf v := rfl
  have h3 : sizeOf (Value.obj o) = 1 + sizeOf o := by simp
  omega

theorem relEntries_ne_nil : ∀ n v, sizeOf v ≤ n → wfV v = true →
    relEntries v ≠ [] := by
  intro n
  induction n with
  | zero =>
    intro v hsz
    cases v <;> simp_all
  | succ n ih =>
    intro v hsz hwf
    cases v with
    | arr l =>
      cases l with
      | nil => simp [wfV] at hwf
      | cons v0 rest =>
        have h0 : wfV v0 = true := by
          simp only [wfV, Bool.and_eq_true] at hwf
          exact wfL_mem hwf.2 (List.mem_cons_self v0 rest)
        have hs0 : sizeOf v0 ≤ n := by
          have := sizeOf_mem_arr (List.mem_cons_self v0 rest)
          omega
        simp only [relEntries, relEntriesA]
        intro hcontra
        rcases List.append_eq_nil.mp hcontra with ⟨h1, _⟩
        exact ih v0 hs0 h0 (List.map_eq_nil_iff.mp h1)
    | obj o =>
      cases o with
      | nil => simp [wfV] at hwf
      | cons hd rest =>
        obtain ⟨k0, v0⟩ := hd
        have h0 : wfV v0 = true := by
          simp only [wfV, Bool.and_eq_true] at hwf
          exact (wfO_mem hwf.2 (List.mem_cons_self (k0, v0) rest)).2
        have hs0 : sizeOf v0 ≤ n := by
          have := sizeOf_mem_obj (List.mem_cons_self (k0, v0) rest)
          omega
        simp only [relEntries, relEntriesO]
        intro hcontra
        rcases List.append_eq_nil.mp hcontra with ⟨h1, _⟩
        exact ih v0 hs0 h0 (List.map_eq_nil_iff.mp h1)
    | null => simp [relEntries]
    | bool b => simp [relEntries]
    | num m => simp [relEntries]
    | str s => simp [relEntries]

/-! ### The build lemma: unflattening the relative entries of a well-formed
value materialises exactly that value in a fresh slot -/

theorem foldEntries_leaf {cur : Value} {p : String} (h : slotFresh cur p)
    (x : Value) : foldEntries cur p [([], x)] = .ok (slotAppend cur p x) := by
  cases cur with
  | obj o =>
    simp only [slotFresh] at h
    simp [foldEntries, descend, slotAppend, mapSet_fresh h]
  | arr a => simp [foldEntries, descend, slotAppend]
  | null => simp [slotFresh] at h
  | bool b => simp [slotFresh] at h
  | num m => simp [slotFresh] at h
  | str s => simp [slotFresh] at h

theorem buildArrAux (n : Nat)
    (ih : ∀ v, sizeOf v ≤ n → wfV v = true → ∀ cur p, slotFresh cur p →
      foldEntries cur p (relEntries v) = .ok (slotAppend cur p v)) :
    ∀ rest acc cur p,
      (∀ v ∈ rest, sizeOf v ≤ n) → wfL rest = true →
      acc.length + rest.length ≤ USIZE_MAX →
      slotAt cur p = some (.arr acc) →
      foldEntries cur p (relEntriesA acc.length rest) =
        .ok (slotSet cur p (.arr (acc ++ rest))) := by
  intro rest
  induction rest with
  | nil =>
    intro acc cur p _ _ _ hat
    simp only [relEntriesA, foldEntries, List.append_nil]
    rw [slotSet_self hat]
  | cons v1 rest' ihr =>
    intro acc cur p hsz hwl hbound hat
    have hv1 : wfV v1 = true := by
      simp only [wfL, Bool.and_eq_true] at hwl; exact hwl.1
    have hw' : wfL rest' = true := by
      simp only [wfL, Bool.and_eq_true] at hwl; exact hwl.2
    have hfresh1 : slotFresh (Value.arr acc)
        (Seg.text (Seg.idx (natDigits acc.length))) := by
      simp only [slotFresh, seg_text_idx]
      exact parseUsize_natDigits (by simp at hbound; omega)
    simp only [relEntriesA]
    rw [foldEntries_append, liftPresent hat (Seg.idx (natDigits acc.length)),
      ih v1 (hsz v1 (List.mem_cons_self v1 rest')) hv1 _ _ hfresh1]
    simp only [Except.map, slotAppend]
    have hat1 : slotAt (slotSet cur p (Value.arr (acc ++ [v1]))) p =
        some (Value.arr (acc ++ [v1])) := slotAt_slotSet hat _
    have hrec := ihr (acc ++ [v1]) (slotSet cur p (Value.arr (acc ++ [v1]))) p
      (fun v hv => hsz v (List.mem_cons_of_mem v1 hv)) hw'
      (by simp at hbound ⊢; omega) hat1
    rw [List.length_append, List.length_singleton] at hrec
    rw [hrec, slotSet_slotSet]
    simp

theorem buildObjAux (n : Nat)
    (ih : ∀ v, sizeOf v ≤ n → wfV v = true → ∀ cur p, slotFresh cur p →
      foldEntries cur p (relEntries v) = .ok (slotAppend cur p v)) :
    ∀ rest acc cur p,
      (∀ e ∈ rest, sizeOf e.2 ≤ n) → wfO rest = true →
      nodupKeys rest = true →
      (∀ e ∈ rest, mapGet acc e.1 = none) →
      slotAt cur p = some (.obj acc) →
      foldEntries cur p (relEntriesO rest) =
        .ok (slotSet cur p (.obj (acc ++ rest))) := by
  intro rest
  induction rest with
  | nil =>
    intro acc cur p _ _ _ _ hat
    simp only [relEntriesO, foldEntries, List.append_nil]
    rw [slotSet_self hat]
  | cons e1 rest' ihr =>
    obtain ⟨k1, v1⟩ := e1
    intro acc cur p hsz hwo hnd hfr hat
    have hv1 : wfV v1 = true := by
      simp only [wfO, Bool.and_eq_true] at hwo; exact hwo.1.2
    have hw' : wfO rest' = true := by
      simp only [wfO, Bool.and_eq_true] at hwo; exact hwo.2
    have hnd1 : mapGet rest' k1 = none := by
      simp only [nodupKeys, Bool.and_eq_true, Option.isNone_iff_eq_none] at hnd
      exact hnd.1
    have hnd' : nodupKeys rest' = true := by
      simp only [nodupKeys, Bool.and_eq_true] at hnd; exact hnd.2
    have hfresh1 : slotFresh (Value.obj acc)
        (Seg.text (Seg.key k1.data)) := by
      simp only [slotFresh, seg_text_key, string_mk_data]
      exact hfr (k1, v1) (List.mem_cons_self (k1, v1) rest')
    simp only [relEntriesO]
    rw [foldEntries_append, liftPresent hat (Seg.key k1.data),
      ih v1 (hsz (k1, v1) (List.mem_cons_self (k1, v1) rest')) hv1 _ _ hfresh1]
    simp only [Except.map, slotAppend, seg_text_key, string_mk_data]
    have hat1 : slotAt (slotSet cur p (Value.obj (acc ++ [(k1, v1)]))) p =
        some (Value.obj (acc ++ [(k1, v1)])) := slotAt_slotSet hat _
    have hfr' : ∀ e ∈ rest', mapGet (acc ++ [(k1, v1)]) e.1 = none := by
      intro e he
      have h1 : mapGet acc e.1 = none := hfr e (List.mem_cons_of_mem _ he)
      have h2 : e.1 ≠ k1 := by
        intro heq
        obtain ⟨ek, ev⟩ := e
        simp only at heq
        exact mapGet_ne_none_of_mem he (heq ▸ hnd1)
      rw [mapGet_append_of_none h1]
      simp only [mapGet]
      rw [if_neg (fun h => h2 h.symm)]
    have hrec := ihr (acc ++ [(k1, v1)])
      (slotSet cur p (Value.obj (acc ++ [(k1, v1)]))) p
      (fun e he => hsz e (List.mem_cons_of_mem _ he)) hw' hnd' hfr' hat1
    rw [hrec, slotSet_slotSet]
    simp

/-- Master lemma: processing the relative entries of a well-formed value
against a container with a fresh slot appends exactly that value there. -/
theorem buildFresh : ∀ n v, sizeOf v ≤ n → wfV v = true →
    ∀ cur p, slotFresh cur p →
    foldEntries cur p (relEntries v) = .ok (slotAppend cur p v) := by
  intro n
  induction n with
  | zero =>
    intro v hsz
    cases v <;> simp_all
  | succ n ih =>
    intro v hsz hwf cur p hfresh
    cases v with
    | null => simp only [relEntries]; exact foldEntries_leaf hfresh _
    | bool b => simp only [relEntries]; exact foldEntries_leaf hfresh _
    | num m => simp only [relEntries]; exact foldEntries_leaf hfresh _
    | str s => simp only [relEntries]; exact foldEntries_leaf hfresh _
    | arr l =>
      have hwf' := hwf
      simp only [wfV, Bool.and_eq_true, decide_eq_true_eq] at hwf'
      obtain ⟨⟨hne, hlen⟩, hwl⟩ := hwf'
      cases l with
      | nil => simp at hne
      | cons v0 rest =>
        have hv0 : wfV v0 = true := wfL_mem hwl (List.mem_cons_self v0 rest)
        have hs0 : sizeOf v0 ≤ n := by
          have := sizeOf_mem_arr (l := v0 :: rest) (List.mem_cons_self v0 rest)
          omega
        have hne0 : relEntries v0 ≠ [] := relEntries_ne_nil n v0 hs0 hv0
        have hfresh0 : slotFresh (Seg.idx (natDigits 0)).childInit
            (Seg.text (Seg.idx (natDigits 0))) := by
          simp only [Seg.childInit, slotFresh, seg_text_idx, List.length_nil]
          exact parseUsize_natDigits (by simp [USIZE_MAX])
        simp only [relEntries, relEntriesA]
        rw [foldEntries_append, liftFresh hfresh _ hne0,
          ih v0 hs0 hv0 _ _ hfresh0]
        simp only [Except.map, Seg.childInit, slotAppend_arr, List.nil_append,
          Nat.zero_add]
        have hat1 : slotAt (slotAppend cur p (Value.arr [v0])) p =
            some (Value.arr [v0]) := slotAt_slotAppend hfresh _
        have hsz' : ∀ v ∈ rest, sizeOf v ≤ n := by
          intro v hv
          have := sizeOf_mem_arr (l := v0 :: rest) (List.mem_cons_of_mem v0 hv)
          omega
        have hwl' : wfL rest = true := by
          simp only [wfL, Bool.and_eq_true] at hwl; exact hwl.2
        have hrec := buildArrAux n ih rest [v0] _ p hsz' hwl'
          (by simp at hlen ⊢; omega) hat1
        rw [List.length_singleton] at hrec
        rw [hrec, slotSet_slotAppend hfresh]
        simp
    | obj o =>
      have hwf' := hwf
      simp only [wfV, Bool.and_eq_true] at hwf'
      obtain ⟨⟨hne, hnd⟩, hwo⟩ := hwf'
      cases o with
      | nil => simp at hne
      | cons e0 rest =>
        obtain ⟨k0, v0⟩ := e0
        have hv0 : wfV v0 = true :=
          (wfO_mem hwo (List.mem_cons_self (k0, v0) rest)).2
        have hs0 : sizeOf v0 ≤ n := by
          have := sizeOf_mem_obj (o := (k0, v0) :: rest)
            (List.mem_cons_self (k0, v0) rest)
          omega
        have hne0 : relEntries v0 ≠ [] := relEntries_ne_nil n v0 hs0 hv0
        have hfresh0 : slotFresh (Seg.key k0.data).childInit
            (Seg.text (Seg.key k0.data)) := by
          simp [Seg.childInit, slotFresh, mapGet]
        simp only [relEntries, relEntriesO]
        rw [foldEntries_append, liftFresh hfresh _ hne0,
          ih v0 hs0 hv0 _ _ hfresh0]
        simp only [Except.map, Seg.childInit, slotAppend_obj, List.nil_append,
          seg_text_key, string_mk_data]
        have hat1 : slotAt (slotAppend cur p (Value.obj [(k0, v0)])) p =
            some (Value.obj [(k0, v0)]) := slotAt_slotAppend hfresh _
        have hsz' : ∀ e ∈ rest, sizeOf e.2 ≤ n := by
          intro e he
          obtain ⟨ek, ev⟩ := e
          show sizeOf ev ≤ n
          have := sizeOf_mem_obj (o := (k0, v0) :: rest)
            (List.mem_cons_of_mem _ he)
          omega
        have hwo' : wfO rest = true := by
          simp only [wfO, Bool.and_eq_true] at hwo; exact hwo.2
        have hnd1 : mapGet rest k0 = none := by
          simp only [nodupKeys, Bool.and_eq_true,
            Option.isNone_iff_eq_none] at hnd
          exact hnd.1
        have hnd' : nodupKeys rest = true := by
          simp only [nodupKeys, Bool.and_eq_true] at hnd; exact hnd.2
        have hfr : ∀ e ∈ rest, mapGet [(k0, v0)] e.1 = none := by
          intro e he
          have h2 : e.1 ≠ k0 := by
            intro heq
            obtain ⟨ek, ev⟩ := e
            simp only at heq
            exact mapGet_ne_none_of_mem he (heq ▸ hnd1)
          simp only [mapGet]
          rw [if_neg (fun h => h2 h.symm)]
        have hrec := buildObjAux n ih rest [(k0, v0)] _ p hsz' hwo' hnd'
          hfr hat1
        rw [hrec, slotSet_slotAppend hfresh]
        simp

/-! ### Tokenization of rendered paths -/

theorem takeWhile_all_append {p : Char → Bool} {k : List Char}
    (h : ∀ c ∈ k, p c = true) (rest : List Char) :
    (k ++ rest).takeWhile p = k ++ rest.takeWhile p := by
  induction k with
  | nil => simp
  | cons c k' ih =>
    have hc := h c (List.mem_cons_self c k')
    simp [List.takeWhile_cons, hc,
      ih (fun x hx => h x (List.mem_cons_of_mem c hx))]

theorem dropWhile_all_append {p : Char → Bool} {k : List Char}
    (h : ∀ c ∈ k, p c = true) (rest : List Char) :
    (k ++ rest).dropWhile p = rest.dropWhile p := by
  induction k with
  | nil => simp
  | cons c k' ih =>
    have hc := h c (List.mem_cons_self c k')
    simp [List.dropWhile_cons, hc,
      ih (fun x hx => h x (List.mem_cons_of_mem c hx))]

theorem tokenize_key_run {k rest : List Char} (hne : k ≠ [])
    (hgood : ∀ c ∈ k, notSep c = true)
    (hshape : rest = [] ∨ ∃ c cs, rest = c :: cs ∧ isSep c = true) :
    tokenize (k ++ rest) = .key k :: tokenize rest := by
  obtain ⟨c, k', rfl⟩ : ∃ c k', k = c :: k' := by
    cases k with
    | nil => exact absurd rfl hne
    | cons c k' => exact ⟨c, k', rfl⟩
  have hc : notSep c = true := hgood c (List.mem_cons_self c k')
  have hall : ∀ x ∈ k', notSep x = true :=
    fun x hx => hgood x (List.mem_cons_of_mem c hx)
  have htw : (k' ++ rest).takeWhile notSep = k' := by
    rw [takeWhile_all_append hall]
    rcases hshape with rfl | ⟨d, ds, rfl, hd⟩
    · simp
    · simp [List.takeWhile_cons, notSep, hd]
  have hdw : (k' ++ rest).dropWhile notSep = rest := by
    rw [dropWhile_all_append hall]
    rcases hshape with rfl | ⟨d, ds, rfl, hd⟩
    · simp
    · simp [List.dropWhile_cons, notSep, hd]
  show tokenize (c :: (k' ++ rest)) = _
  rw [tokenize.eq_def]
  try dsimp only
  rw [if_pos hc, htw, hdw]


theorem tokenize_key_dot {k rest : List Char} (hne : k ≠ [])
    (hgood : ∀ c ∈ k, notSep c = true)
    (hshape : rest = [] ∨ ∃ c cs, rest = c :: cs ∧ isSep c = true) :
    tokenize ('.' :: (k ++ rest)) = .key k :: tokenize rest := by
  obtain ⟨c, k', rfl⟩ : ∃ c k', k = c :: k' := by
    cases k with
    | nil => exact absurd rfl hne
    | cons c k' => exact ⟨c, k', rfl⟩
  have hc : notSep c = true := hgood c (List.mem_cons_self c k')
  have hall : ∀ x ∈ k', notSep x = true :=
    fun x hx => hgood x (List.mem_cons_of_mem c hx)
  have htw : (k' ++ rest).takeWhile notSep = k' := by
    rw [takeWhile_all_append hall]
    rcases hshape with rfl | ⟨d, ds, rfl, hd⟩
    · simp
    · simp [List.takeWhile_cons, notSep, hd]
  have hdw : (k' ++ rest).dropWhile notSep = rest := by
    rw [dropWhile_all_append hall]
    rcases hshape with rfl | ⟨d, ds, rfl, hd⟩
    · simp
    · simp [List.dropWhile_cons, notSep, hd]
  simp only [List.cons_append]
  rw [tokenize.eq_def]
  try dsimp only
  rw [if_neg (show ¬notSep '.' = true by decide),
    if_pos (show '.' = '.' from rfl)]
  try dsimp only
  rw [if_pos hc, htw, hdw]

theorem tokenize_idx_run {d rest : List Char} (hne : d ≠ [])
    (hdig : ∀ c ∈ d, isDigitC c = true) :
    tokenize ('[' :: (d ++ ']' :: rest)) = .idx d :: tokenize rest := by
  have htw : (d ++ ']' :: rest).takeWhile isDigitC = d := by
    rw [takeWhile_all_append hdig]
    simp [List.takeWhile_cons, isDigitC]
  have hdw : (d ++ ']' :: rest).dropWhile isDigitC = ']' :: rest := by
    rw [dropWhile_all_append hdig]
    simp [List.dropWhile_cons, isDigitC]
  obtain ⟨c, d', rfl⟩ : ∃ c d', d = c :: d' := by
    cases d with
    | nil => exact absurd rfl hne
    | cons c d' => exact ⟨c, d', rfl⟩
  simp only [List.cons_append] at htw hdw ⊢
  have hcond : (List.takeWhile isDigitC (c :: (d' ++ ']' :: rest))).isEmpty = false ∧
      (List.dropWhile isDigitC (c :: (d' ++ ']' :: rest))).head? = some ']' := by
    rw [htw, hdw]
    exact ⟨rfl, rfl⟩
  rw [tokenize.eq_def]
  try dsimp only
  rw [if_neg (show ¬notSep '[' = true by decide),
    if_neg (show ¬ ('[' = '.') by decide),
    if_pos (show '[' = '[' from rfl),
    if_pos hcond, htw, hdw]
  rfl

theorem renderChars_shape (segs : List Seg) :
    renderChars segs = [] ∨
      ∃ c cs, renderChars segs = c :: cs ∧ isSep c = true := by
  cases segs with
  | nil => exact Or.inl rfl
  | cons s rest =>
    cases s with
    | key k => exact Or.inr ⟨'.', _, rfl, by decide⟩
    | idx d => exact Or.inr ⟨'[', _, rfl, by decide⟩

theorem tokenize_renderChars {segs : List Seg}
    (h : ∀ s ∈ segs, goodSeg s = true) :
    tokenize (renderChars segs) = segs := by
  induction segs with
  | nil => rw [renderChars, tokenize.eq_def]
  | cons s rest ih =>
    have hrest : ∀ s ∈ rest, goodSeg s = true :=
      fun x hx => h x (List.mem_cons_of_mem s hx)
    cases s with
    | key k =>
      have hg := h _ (List.mem_cons_self _ rest)
      simp only [goodSeg, Bool.and_eq_true, Bool.not_eq_true',
        List.all_eq_true] at hg
      rw [renderChars, tokenize_key_dot ?hne hg.2 (renderChars_shape rest),
        ih hrest]
      case hne =>
        intro hk
        rw [hk] at hg
        simp at hg
    | idx d =>
      have hg := h _ (List.mem_cons_self _ rest)
      simp only [goodSeg, Bool.and_eq_true, List.all_eq_true] at hg
      rw [renderChars, tokenize_idx_run ?hne hg.2, ih hrest]
      case hne =>
        intro hd
        rw [hd] at hg
        simp at hg

theorem tokenize_renderFirst {k : List Char} {rest : List Seg}
    (h : ∀ s ∈ (Seg.key k :: rest), goodSeg s = true) :
    tokenize (renderFirst (Seg.key k :: rest)) = Seg.key k :: rest := by
  have hg := h _ (List.mem_cons_self _ rest)
  simp only [goodSeg, Bool.and_eq_true, List.all_eq_true] at hg
  have hrest : ∀ s ∈ rest, goodSeg s = true :=
    fun x hx => h x (List.mem_cons_of_mem _ hx)
  rw [renderFirst, tokenize_key_run ?hne hg.2 (renderChars_shape rest),
    tokenize_renderChars hrest]
  case hne =>
    intro hk
    rw [hk] at hg
    simp at hg

/-! ### Shape and validity of relative entries -/

theorem mapGet_eq_none_of_forall_ne {m : FlatMap} {k : String}
    (h : ∀ e ∈ m, e.1 ≠ k) : mapGet m k = none := by
  induction m with
  | nil => rfl
  | cons hd tl ih =>
    obtain ⟨k1, v1⟩ := hd
    have h1 : k1 ≠ k := h (k1, v1) (List.mem_cons_self _ _)
    simp only [mapGet]
    rw [if_neg h1]
    exact ih (fun e he => h e (List.mem_cons_of_mem _ he))

theorem relEntriesA_firstseg : ∀ (rest : List Value) (i : Nat) e,
    e ∈ relEntriesA i rest →
    ∃ j tl, i ≤ j ∧ e.1 = Seg.idx (natDigits j) :: tl := by
  intro rest
  induction rest with
  | nil =>
    intro i e he
    simp [relEntriesA] at he
  | cons v1 rest' ih =>
    intro i e he
    simp only [relEntriesA, List.mem_append, List.mem_map] at he
    rcases he with ⟨e', _, rfl⟩ | he'
    · exact ⟨i, e'.1, Nat.le_refl i, rfl⟩
    · obtain ⟨j, tl, hij, htl⟩ := ih (i + 1) e he'
      exact ⟨j, tl, by omega, htl⟩

theorem relEntriesO_firstseg : ∀ (o : List (String × Value)) e,
    e ∈ relEntriesO o →
    ∃ k v tl, (k, v) ∈ o ∧ e.1 = Seg.key k.data :: tl := by
  intro o
  induction o with
  | nil =>
    intro e he
    simp [relEntriesO] at he
  | cons kv rest' ih =>
    obtain ⟨k1, v1⟩ := kv
    intro e he
    simp only [relEntriesO, List.mem_append, List.mem_map] at he
    rcases he with ⟨e', _, rfl⟩ | he'
    · exact ⟨k1, v1, e'.1, List.mem_cons_self _ _, rfl⟩
    · obtain ⟨k, v, tl, hm, htl⟩ := ih e he'
      exact ⟨k, v, tl, List.mem_cons_of_mem _ hm, htl⟩

theorem goodSeg_idx_natDigits (j : Nat) :
    goodSeg (Seg.idx (natDigits j)) = true := by
  have h1 := natDigits_ne_nil j
  have h2 := natDigits_all_digits j
  cases hd : natDigits j with
  | nil => exact absurd hd h1
  | cons c cs =>
    simp only [goodSeg, List.isEmpty_cons, Bool.not_false, Bool.true_and,
      List.all_eq_true]
    exact fun x hx => h2 x (hd ▸ hx)

theorem goodSeg_key_goodKey {k : String} (h : goodKey k = true) :
    goodSeg (Seg.key k.data) = true := h

theorem goodSegsA (n : Nat)
    (ih : ∀ v, sizeOf v ≤ n → wfV v = true →
      ∀ e ∈ relEntries v, ∀ s ∈ e.1, goodSeg s = true) :
    ∀ (rest : List Value) (i : Nat),
      (∀ v' ∈ rest, sizeOf v' ≤ n ∧ wfV v' = true) →
      ∀ e ∈ relEntriesA i rest, ∀ s ∈ e.1, goodSeg s = true := by
  intro rest
  induction rest with
  | nil =>
    intro i _ e he
    simp [relEntriesA] at he
  | cons v1 r' ihr =>
    intro i hvs e he
    simp only [relEntriesA, List.mem_append, List.mem_map] at he
    rcases he with ⟨e', he', rfl⟩ | he'
    · intro s hs
      rcases List.mem_cons.mp hs with rfl | hs'
      · exact goodSeg_idx_natDigits i
      · exact ih v1 (hvs v1 (List.mem_cons_self _ _)).1
          (hvs v1 (List.mem_cons_self _ _)).2 e' he' s hs'
    · exact ihr (i + 1) (fun v' h => hvs v' (List.mem_cons_of_mem _ h)) e he'

theorem goodSegsO (n : Nat)
    (ih : ∀ v, sizeOf v ≤ n → wfV v = true →
      ∀ e ∈ relEntries v, ∀ s ∈ e.1, goodSeg s = true) :
    ∀ (rest : List (String × Value)),
      (∀ e' ∈ rest, sizeOf e'.2 ≤ n ∧ goodKey e'.1 = true ∧ wfV e'.2 = true) →
      ∀ e ∈ relEntriesO rest, ∀ s ∈ e.1, goodSeg s = true := by
  intro rest
  induction rest with
  | nil =>
    intro _ e he
    simp [relEntriesO] at he
  | cons kv r' ihr =>
    obtain ⟨k1, v1⟩ := kv
    intro hvs e he
    simp only [relEntriesO, List.mem_append, List.mem_map] at he
    rcases he with ⟨e', he', rfl⟩ | he'
    · intro s hs
      rcases List.mem_cons.mp hs with rfl | hs'
      · exact goodSeg_key_goodKey
          (hvs (k1, v1) (List.mem_cons_self _ _)).2.1
      · exact ih v1 (hvs (k1, v1) (List.mem_cons_self _ _)).1
          (hvs (k1, v1) (List.mem_cons_self _ _)).2.2 e' he' s hs'
    · exact ihr (fun e' h => hvs e' (List.mem_cons_of_mem _ h)) e he'

theorem relEntries_goodSegs : ∀ n v, sizeOf v ≤ n → wfV v = true →
    ∀ e ∈ relEntries v, ∀ s ∈ e.1, goodSeg s = true := by
  intro n
  induction n with
  | zero =>
    intro v hsz
    cases v <;> simp_all
  | succ n ih =>
    intro v hsz hwf e he s hs
    cases v with
    | null =>
      simp only [relEntries, List.mem_singleton] at he
      rw [he] at hs
      simp at hs
    | bool b =>
      simp only [relEntries, List.mem_singleton] at he
      rw [he] at hs
      simp at hs
    | num m =>
      simp only [relEntries, List.mem_singleton] at he
      rw [he] at hs
      simp at hs
    | str t =>
      simp only [relEntries, List.mem_singleton] at he
      rw [he] at hs
      simp at hs
    | arr l =>
      have hparts : ∀ v' ∈ l, sizeOf v' ≤ n ∧ wfV v' = true := by
        intro v' hv'
        refine ⟨?_, ?_⟩
        · have := sizeOf_mem_arr (l := l) hv'
          omega
        · simp only [wfV, Bool.and_eq_true] at hwf
          exact wfL_mem hwf.2 hv'
      simp only [relEntries] at he
      exact goodSegsA n ih l 0 hparts e he s hs
    | obj o =>
      have hparts : ∀ e' ∈ o,
          sizeOf e'.2 ≤ n ∧ goodKey e'.1 = true ∧ wfV e'.2 = true := by
        intro e' he'
        obtain ⟨ek, ev⟩ := e'
        have hm := wfO_mem (by
          simp only [wfV, Bool.and_eq_true] at hwf
          exact hwf.2) he'
        refine ⟨?_, hm.1, hm.2⟩
        show sizeOf ev ≤ n
        have := sizeOf_mem_obj (o := o) he'
        omega
      simp only [relEntries] at he
      exact goodSegsO n ih o hparts e he s hs

/-! ### Rendered path identities and distinctness -/

theorem string_data_mk (cs : List Char) : (String.mk cs).data = cs := rfl

theorem string_append_mk_nil (s : String) : s ++ String.mk [] = s := by
  apply String.ext
  simp [String.data_append, string_data_mk]

theorem renderChars_key_append (pfx k : String) (tl : List Seg) :
    pfx ++ "." ++ k ++ String.mk (renderChars tl) =
      pfx ++ String.mk (renderChars (Seg.key k.data :: tl)) := by
  apply String.ext
  simp only [String.data_append, string_data_mk, renderChars,
    show ("." : String).data = ['.'] from rfl]
  simp

theorem renderChars_idx_append (pfx : String) (i : Nat) (tl : List Seg) :
    pfx ++ "[" ++ String.mk (natDigits i) ++ "]" ++
        String.mk (renderChars tl) =
      pfx ++ String.mk (renderChars (Seg.idx (natDigits i) :: tl)) := by
  apply String.ext
  simp only [String.data_append, string_data_mk, renderChars,
    show ("[" : String).data = ['['] from rfl,
    show ("]" : String).data = [']'] from rfl]
  simp

theorem renderFirst_key_append (k : String) (tl : List Seg) :
    k ++ String.mk (renderChars tl) =
      String.mk (renderFirst (Seg.key k.data :: tl)) := by
  apply String.ext
  simp only [String.data_append, string_data_mk, renderFirst]

theorem append_run_inj {p : Char → Bool} {a b r1 r2 : List Char}
    (ha : ∀ c ∈ a, p c = true) (hb : ∀ c ∈ b, p c = true)
    (h1 : r1.takeWhile p = []) (h2 : r2.takeWhile p = [])
    (heq : a ++ r1 = b ++ r2) : a = b := by
  have e1 : (a ++ r1).takeWhile p = a := by
    rw [takeWhile_all_append ha, h1, List.append_nil]
  have e2 : (b ++ r2).takeWhile p = b := by
    rw [takeWhile_all_append hb, h2, List.append_nil]
  rw [heq, e2] at e1
  exact e1.symm

theorem renderChars_takeWhile_notSep (segs : List Seg) :
    (renderChars segs).takeWhile notSep = [] := by
  rcases renderChars_shape segs with h | ⟨c, cs, h, hc⟩
  · rw [h]; rfl
  · rw [h]
    simp [List.takeWhile_cons, notSep, hc]

theorem path_ne_idx {pfx : String} {i j : Nat} {tl tl' : List Seg}
    (hij : i ≠ j) :
    pfx ++ String.mk (renderChars (Seg.idx (natDigits i) :: tl)) ≠
      pfx ++ String.mk (renderChars (Seg.idx (natDigits j) :: tl')) := by
  intro heq
  apply hij
  have hdata := congrArg String.data heq
  simp only [String.data_append, string_data_mk] at hdata
  have h2 := List.append_cancel_left hdata
  simp only [renderChars] at h2
  injection h2 with _ h3
  refine natDigits_injective (append_run_inj (natDigits_all_digits i)
    (natDigits_all_digits j) ?_ ?_ h3) <;>
    simp [List.takeWhile_cons, show isDigitC ']' = false by decide]

theorem path_ne_key {pfx k k' : String} {tl tl' : List Seg}
    (hk : ∀ c ∈ k.data, notSep c = true)
    (hk' : ∀ c ∈ k'.data, notSep c = true) (hne : k ≠ k') :
    pfx ++ String.mk (renderChars (Seg.key k.data :: tl)) ≠
      pfx ++ String.mk (renderChars (Seg.key k'.data :: tl')) := by
  intro heq
  apply hne
  apply String.ext
  have hdata := congrArg String.data heq
  simp only [String.data_append, string_data_mk] at hdata
  have h2 := List.append_cancel_left hdata
  simp only [renderChars] at h2
  injection h2 with _ h3
  exact append_run_inj hk hk' (renderChars_takeWhile_notSep tl)
    (renderChars_takeWhile_notSep tl') h3

theorem path_ne_key_bare {k k' : String} {tl tl' : List Seg}
    (hk : ∀ c ∈ k.data, notSep c = true)
    (hk' : ∀ c ∈ k'.data, notSep c = true) (hne : k ≠ k') :
    String.mk (renderFirst (Seg.key k.data :: tl)) ≠
      String.mk (renderFirst (Seg.key k'.data :: tl')) := by
  intro heq
  apply hne
  apply String.ext
  have hdata := congrArg String.data heq
  simp only [string_data_mk, renderFirst] at hdata
  exact append_run_inj hk hk' (renderChars_takeWhile_notSep tl)
    (renderChars_takeWhile_notSep tl') hdata

/-! ### Unfolding lemmas for the flatten recursion -/

theorem flatten_object_nil (result : FlatMap) (property : Option String) :
    flatten_object result property [] = .ok result := by
  rw [flatten_object.eq_def]

theorem flatten_array_nil (result : FlatMap) (property : String) (i : Nat) :
    flatten_array result property [] i = .ok result := by
  rw [flatten_array.eq_def]

theorem flatten_object_cons (result : FlatMap) (property : Option String)
    (prop : String) (value : Value) (rest : List (String × Value)) :
    flatten_object result property ((prop, value) :: rest) =
      match flattenChild result
          (match property with
           | none => prop
           | some parent_key => parent_key ++ "." ++ prop) value with
      | .error e => .error e
      | .ok result1 => flatten_object result1 property rest := by
  rw [flatten_object.eq_def]
  cases value <;> rfl

theorem flatten_array_cons (result : FlatMap) (property : String)
    (value : Value) (rest : List Value) (i : Nat) :
    flatten_array result property (value :: rest) i =
      match flattenChild result
          (property ++ "[" ++ String.mk (natDigits i) ++ "]") value with
      | .error e => .error e
      | .ok result1 => flatten_array result1 property rest (i + 1) := by
  rw [flatten_array.eq_def]
  cases value <;> rfl

/-! ### What flatten produces on well-formed trees -/

theorem flatten_value_scalar_spec {result : FlatMap} {pfx : String}
    {v : Value} (hobj : v.isObj = false) (harr : v.isArr = false)
    (hfresh : mapGet result pfx = none) :
    flatten_value result pfx v = .ok (result ++ [(pfx, v)]) := by
  simp [flatten_value, hobj, harr, hfresh]

theorem flattenArrSpecAux (n : Nat)
    (ih : ∀ v, sizeOf v ≤ n → wfV v = true → ∀ result pfx,
      (∀ e ∈ relEntries v,
        mapGet result (pfx ++ String.mk (renderChars e.1)) = none) →
      flattenChild result pfx v = .ok (result ++ (relEntries v).map
        (fun e => (pfx ++ String.mk (renderChars e.1), e.2)))) :
    ∀ (rest : List Value) (i : Nat) (result : FlatMap) (pfx : String),
      (∀ v' ∈ rest, sizeOf v' ≤ n) → wfL rest = true →
      (∀ e ∈ relEntriesA i rest,
        mapGet result (pfx ++ String.mk (renderChars e.1)) = none) →
      flatten_array result pfx rest i =
        .ok (result ++ (relEntriesA i rest).map
          (fun e => (pfx ++ String.mk (renderChars e.1), e.2))) := by
  intro rest
  induction rest with
  | nil =>
    intro i result pfx _ _ _
    simp [flatten_array_nil, relEntriesA]
  | cons v1 r' ihr =>
    intro i result pfx hsz hwl hfr
    have hv1 : wfV v1 = true := by
      simp only [wfL, Bool.and_eq_true] at hwl; exact hwl.1
    have hw' : wfL r' = true := by
      simp only [wfL, Bool.and_eq_true] at hwl; exact hwl.2
    rw [flatten_array_cons]
    have hfr1 : ∀ e ∈ relEntries v1,
        mapGet result ((pfx ++ "[" ++ String.mk (natDigits i) ++ "]") ++
          String.mk (renderChars e.1)) = none := by
      intro e he
      rw [renderChars_idx_append]
      refine hfr (Seg.idx (natDigits i) :: e.1, e.2) ?_
      simp only [relEntriesA, List.mem_append, List.mem_map]
      exact Or.inl ⟨e, he, rfl⟩
    rw [ih v1 (hsz v1 (List.mem_cons_self _ _)) hv1 result _ hfr1]
    have hblock : (relEntries v1).map
        (fun e => ((pfx ++ "[" ++ String.mk (natDigits i) ++ "]") ++
          String.mk (renderChars e.1), e.2)) =
      ((relEntries v1).map
        (fun e => (Seg.idx (natDigits i) :: e.1, e.2))).map
        (fun e => (pfx ++ String.mk (renderChars e.1), e.2)) := by
      rw [List.map_map]
      apply List.map_congr_left
      intro e _
      simp only [Function.comp]
      rw [renderChars_idx_append]
    simp only [hblock]
    have hfr' : ∀ e ∈ relEntriesA (i + 1) r',
        mapGet (result ++ ((relEntries v1).map
          (fun e => (Seg.idx (natDigits i) :: e.1, e.2))).map
          (fun e => (pfx ++ String.mk (renderChars e.1), e.2)))
          (pfx ++ String.mk (renderChars e.1)) = none := by
      intro e he
      obtain ⟨j, tl, hij, htl⟩ := relEntriesA_firstseg r' (i + 1) e he
      have h1 : mapGet result (pfx ++ String.mk (renderChars e.1)) = none := by
        refine hfr e ?_
        simp only [relEntriesA, List.mem_append]
        exact Or.inr he
      rw [mapGet_append_of_none h1]
      apply mapGet_eq_none_of_forall_ne
      intro ee hee
      simp only [List.mem_map] at hee
      obtain ⟨e2, he2, rfl⟩ := hee
      obtain ⟨e3, he3, rfl⟩ := he2
      simp only
      rw [htl]
      exact path_ne_idx (by omega)
    rw [ihr (i + 1) _ pfx (fun v' h => hsz v' (List.mem_cons_of_mem _ h))
      hw' hfr']
    simp only [relEntriesA, List.map_append, List.append_assoc]

theorem flattenObjSpecAux (n : Nat)
    (ih : ∀ v, sizeOf v ≤ n → wfV v = true → ∀ result pfx,
      (∀ e ∈ relEntries v,
        mapGet result (pfx ++ String.mk (renderChars e.1)) = none) →
      flattenChild result pfx v = .ok (result ++ (relEntries v).map
        (fun e => (pfx ++ String.mk (renderChars e.1), e.2)))) :
    ∀ (rest : List (String × Value)) (result : FlatMap) (pfx : String),
      (∀ e' ∈ rest, sizeOf e'.2 ≤ n) → wfO rest = true →
      nodupKeys rest = true →
      (∀ e ∈ relEntriesO rest,
        mapGet result (pfx ++ String.mk (renderChars e.1)) = none) →
      flatten_object result (some pfx) rest =
        .ok (result ++ (relEntriesO rest).map
          (fun e => (pfx ++ String.mk (renderChars e.1), e.2))) := by
  intro rest
  induction rest with
  | nil =>
    intro result pfx _ _ _ _
    simp [flatten_object_nil, relEntriesO]
  | cons kv r' ihr =>
    obtain ⟨k1, v1⟩ := kv
    intro result pfx hsz hwo hnd hfr
    have hgk1 : goodKey k1 = true := by
      simp only [wfO, Bool.and_eq_true] at hwo; exact hwo.1.1
    have hv1 : wfV v1 = true := by
      simp only [wfO, Bool.and_eq_true] at hwo; exact hwo.1.2
    have hw' : wfO r' = true := by
      simp only [wfO, Bool.and_eq_true] at hwo; exact hwo.2
    have hnd1 : mapGet r' k1 = none := by
      simp only [nodupKeys, Bool.and_eq_true, Option.isNone_iff_eq_none] at hnd
      exact hnd.1
    have hnd' : nodupKeys r' = true := by
      simp only [nodupKeys, Bool.and_eq_true] at hnd; exact hnd.2
    rw [flatten_object_cons]
    have hfr1 : ∀ e ∈ relEntries v1,
        mapGet result ((pfx ++ "." ++ k1) ++
          String.mk (renderChars e.1)) = none := by
      intro e he
      rw [renderChars_key_append]
      refine hfr (Seg.key k1.data :: e.1, e.2) ?_
      simp only [relEntriesO, List.mem_append, List.mem_map]
      exact Or.inl ⟨e, he, rfl⟩
    rw [ih v1 (hsz (k1, v1) (List.mem_cons_self _ _)) hv1 result _ hfr1]
    have hblock : (relEntries v1).map
        (fun e => ((pfx ++ "." ++ k1) ++
          String.mk (renderChars e.1), e.2)) =
      ((relEntries v1).map
        (fun e => (Seg.key k1.data :: e.1, e.2))).map
        (fun e => (pfx ++ String.mk (renderChars e.1), e.2)) := by
      rw [List.map_map]
      apply List.map_congr_left
      intro e _
      simp only [Function.comp]
      rw [renderChars_key_append]
    simp only [hblock]
    have hfr' : ∀ e ∈ relEntriesO r',
        mapGet (result ++ ((relEntries v1).map
          (fun e => (Seg.key k1.data :: e.1, e.2))).map
          (fun e => (pfx ++ String.mk (renderChars e.1), e.2)))
          (pfx ++ String.mk (renderChars e.1)) = none := by
      intro e he
      obtain ⟨k, v, tl, hm, htl⟩ := relEntriesO_firstseg r' e he
      have h1 : mapGet result (pfx ++ String.mk (renderChars e.1)) = none := by
        refine hfr e ?_
        simp only [relEntriesO, List.mem_append]
        exact Or.inr he
      rw [mapGet_append_of_none h1]
      apply mapGet_eq_none_of_forall_ne
      intro ee hee
      simp only [List.mem_map] at hee
      obtain ⟨e2, he2, rfl⟩ := hee
      obtain ⟨e3, he3, rfl⟩ := he2
      simp only
      rw [htl]
      have hkne : k1 ≠ k := by
        intro hk
        exact mapGet_ne_none_of_mem hm (hk ▸ hnd1)
      have hgk : goodKey k = true := (wfO_mem hw' hm).1
      simp only [goodKey, Bool.and_eq_true, List.all_eq_true] at hgk1 hgk
      exact path_ne_key hgk1.2 hgk.2 hkne
    rw [ihr _ pfx (fun e' h => hsz e' (List.mem_cons_of_mem _ h))
      hw' hnd' hfr']
    simp only [relEntriesO, List.map_append, List.append_assoc]

theorem flattenChild_spec : ∀ n v, sizeOf v ≤ n → wfV v = true →
    ∀ result pfx,
      (∀ e ∈ relEntries v,
        mapGet result (pfx ++ String.mk (renderChars e.1)) = none) →
      flattenChild result pfx v = .ok (result ++ (relEntries v).map
        (fun e => (pfx ++ String.mk (renderChars e.1), e.2))) := by
  intro n
  induction n with
  | zero =>
    intro v hsz
    cases v <;> simp_all
  | succ n ih =>
    intro v hsz hwf result pfx hfr
    cases v with
    | null =>
      have h0 : mapGet result pfx = none := by
        have := hfr ([], .null) (by simp [relEntries])
        rwa [show String.mk (renderChars []) = String.mk [] from rfl,
          string_append_mk_nil] at this
      show flatten_value result pfx .null = _
      rw [flatten_value_scalar_spec (show Value.isObj .null = false from rfl)
        (show Value.isArr .null = false from rfl) h0]
      simp [relEntries, renderChars, string_append_mk_nil]
    | bool b =>
      have h0 : mapGet result pfx = none := by
        have := hfr ([], .bool b) (by simp [relEntries])
        rwa [show String.mk (renderChars []) = String.mk [] from rfl,
          string_append_mk_nil] at this
      show flatten_value result pfx (.bool b) = _
      rw [flatten_value_scalar_spec (show Value.isObj (.bool b) = false from rfl)
        (show Value.isArr (.bool b) = false from rfl) h0]
      simp [relEntries, renderChars, string_append_mk_nil]
    | num m =>
      have h0 : mapGet result pfx = none := by
        have := hfr ([], .num m) (by simp [relEntries])
        rwa [show String.mk (renderChars []) = String.mk [] from rfl,
          string_append_mk_nil] at this
      show flatten_value result pfx (.num m) = _
      rw [flatten_value_scalar_spec (show Value.isObj (.num m) = false from rfl)
        (show Value.isArr (.num m) = false from rfl) h0]
      simp [relEntries, renderChars, string_append_mk_nil]
    | str t =>
      have h0 : mapGet result pfx = none := by
        have := hfr ([], .str t) (by simp [relEntries])
        rwa [show String.mk (renderChars []) = String.mk [] from rfl,
          string_append_mk_nil] at this
      show flatten_value result pfx (.str t) = _
      rw [flatten_value_scalar_spec (show Value.isObj (.str t) = false from rfl)
        (show Value.isArr (.str t) = false from rfl) h0]
      simp [relEntries, renderChars, string_append_mk_nil]
    | arr l =>
      have hwf' := hwf
      simp only [wfV, Bool.and_eq_true] at hwf'
      have hsz' : ∀ v' ∈ l, sizeOf v' ≤ n := by
        intro v' hv'
        have := sizeOf_mem_arr (l := l) hv'
        omega
      show flatten_array result pfx l 0 = _
      simp only [relEntries] at hfr ⊢
      exact flattenArrSpecAux n ih l 0 result pfx hsz' hwf'.2 hfr
    | obj o =>
      have hwf' := hwf
      simp only [wfV, Bool.and_eq_true] at hwf'
      have hsz' : ∀ e' ∈ o, sizeOf e'.2 ≤ n := by
        intro e' he'
        obtain ⟨ek, ev⟩ := e'
        show sizeOf ev ≤ n
        have := sizeOf_mem_obj (o := o) he'
        omega
      show flatten_object result (some pfx) o = _
      simp only [relEntries] at hfr ⊢
      exact flattenObjSpecAux n ih o result pfx hsz' hwf'.2 hwf'.1.2 hfr

theorem flattenObjTop :
    ∀ (rest : List (String × Value)) (result : FlatMap),
      wfO rest = true → nodupKeys rest = true →
      (∀ e ∈ relEntriesO rest,
        mapGet result (String.mk (renderFirst e.1)) = none) →
      flatten_object result none rest =
        .ok (result ++ (relEntriesO rest).map
          (fun e => (String.mk (renderFirst e.1), e.2))) := by
  intro rest
  induction rest with
  | nil =>
    intro result _ _ _
    simp [flatten_object_nil, relEntriesO]
  | cons kv r' ihr =>
    obtain ⟨k1, v1⟩ := kv
    intro result hwo hnd hfr
    have hgk1 : goodKey k1 = true := by
      simp only [wfO, Bool.and_eq_true] at hwo; exact hwo.1.1
    have hv1 : wfV v1 = true := by
      simp only [wfO, Bool.and_eq_true] at hwo; exact hwo.1.2
    have hw' : wfO r' = true := by
      simp only [wfO, Bool.and_eq_true] at hwo; exact hwo.2
    have hnd1 : mapGet r' k1 = none := by
      simp only [nodupKeys, Bool.and_eq_true, Option.isNone_iff_eq_none] at hnd
      exact hnd.1
    have hnd' : nodupKeys r' = true := by
      simp only [nodupKeys, Bool.and_eq_true] at hnd; exact hnd.2
    rw [flatten_object_cons]
    have hfr1 : ∀ e ∈ relEntries v1,
        mapGet result (k1 ++ String.mk (renderChars e.1)) = none := by
      intro e he
      rw [renderFirst_key_append]
      refine hfr (Seg.key k1.data :: e.1, e.2) ?_
      simp only [relEntriesO, List.mem_append, List.mem_map]
      exact Or.inl ⟨e, he, rfl⟩
    rw [flattenChild_spec (sizeOf v1) v1 (Nat.le_refl _) hv1 result k1 hfr1]
    have hblock : (relEntries v1).map
        (fun e => (k1 ++ String.mk (renderChars e.1), e.2)) =
      ((relEntries v1).map
        (fun e => (Seg.key k1.data :: e.1, e.2))).map
        (fun e => (String.mk (renderFirst e.1), e.2)) := by
      rw [List.map_map]
      apply List.map_congr_left
      intro e _
      simp only [Function.comp]
      rw [renderFirst_key_append]
    simp only [hblock]
    have hfr' : ∀ e ∈ relEntriesO r',
        mapGet (result ++ ((relEntries v1).map
          (fun e => (Seg.key k1.data :: e.1, e.2))).map
          (fun e => (String.mk (renderFirst e.1), e.2)))
          (String.mk (renderFirst e.1)) = none := by
      intro e he
      obtain ⟨k, v, tl, hm, htl⟩ := relEntriesO_firstseg r' e he
      have h1 : mapGet result (String.mk (renderFirst e.1)) = none := by
        refine hfr e ?_
        simp only [relEntriesO, List.mem_append]
        exact Or.inr he
      rw [mapGet_append_of_none h1]
      apply mapGet_eq_none_of_forall_ne
      intro ee hee
      simp only [List.mem_map] at hee
      obtain ⟨e2, he2, rfl⟩ := hee
      obtain ⟨e3, he3, rfl⟩ := he2
      simp only
      rw [htl]
      have hkne : k1 ≠ k := by
        intro hk
        exact mapGet_ne_none_of_mem hm (hk ▸ hnd1)
      have hgk : goodKey k = true := (wfO_mem hw' hm).1
      simp only [goodKey, Bool.and_eq_true, List.all_eq_true] at hgk1 hgk
      exact path_ne_key_bare hgk1.2 hgk.2 hkne
    rw [ihr _ hw' hnd' hfr']
    simp only [relEntriesO, List.map_append, List.append_assoc]

/-- On a well-formed top-level object, `flatten` succeeds and produces
exactly the rendered relative entries, in depth-first order. -/
theorem flatten_spec {o : List (String × Value)}
    (hwf : wfV (.obj o) = true) :
    flatten (.obj o) = .ok (flatEntries (.obj o)) := by
  have hparts := hwf
  simp only [wfV, Bool.and_eq_true] at hparts
  obtain ⟨⟨hne, hnd⟩, hwo⟩ := hparts
  have hoe : o.isEmpty = false := by
    cases o with
    | nil => simp at hne
    | cons hd tl => rfl
  simp only [flatten, hoe, Bool.false_eq_true, if_false]
  rw [flattenObjTop o [] hwo hnd (fun _ _ => rfl)]
  simp [flatEntries, relEntries]

/-! ### The round trip -/

theorem unflattenFold_eq_foldEntries :
    ∀ (data : List (String × Value)) (output : Value),
    unflattenFold output data =
      foldEntries output "" (data.map (fun e => (tokenize e.1.data, e.2))) := by
  intro data
  induction data with
  | nil => intro output; rfl
  | cons hd tl ih =>
    obtain ⟨p, v⟩ := hd
    intro output
    rcases hr : descend output "" (tokenize p.data) v with e | o1 <;>
      simp [unflattenFold, foldEntries, hr, ih]

theorem tokenized_flatEntries {o : List (String × Value)}
    (hwf : wfV (.obj o) = true) :
    (flatEntries (.obj o)).map (fun e => (tokenize e.1.data, e.2)) =
      relEntries (.obj o) := by
  simp only [flatEntries, List.map_map]
  have h : ∀ e ∈ relEntries (Value.obj o),
      ((fun e : String × Value => (tokenize e.1.data, e.2)) ∘
        (fun e : List Seg × Value => (String.mk (renderFirst e.1), e.2))) e
        = e := by
    intro e he
    simp only [Function.comp, string_data_mk]
    obtain ⟨k, v, tl, hm, htl⟩ := relEntriesO_firstseg o e
      (by simpa [relEntries] using he)
    have hgs : ∀ s ∈ e.1, goodSeg s = true :=
      relEntries_goodSegs (sizeOf (Value.obj o)) _ (Nat.le_refl _) hwf e he
    have : tokenize (renderFirst e.1) = e.1 := by
      rw [htl]
      exact tokenize_renderFirst (htl ▸ hgs)
    rw [this]
  rw [List.map_congr_left h]
  simp

theorem unflatten_flatEntries {o : List (String × Value)}
    (hwf : wfV (.obj o) = true) :
    unflatten (flatEntries (.obj o)) = .ok (.obj o) := by
  have h1 : unflattenFold (.obj []) (flatEntries (.obj o)) =
      .ok (.obj [("", .obj o)]) := by
    rw [unflattenFold_eq_foldEntries, tokenized_flatEntries hwf]
    have hb := buildFresh (sizeOf (Value.obj o)) (Value.obj o)
      (Nat.le_refl _) hwf (.obj []) "" (by simp [slotFresh, mapGet])
    rw [hb]
    rfl
  simp [unflatten, h1, valueGet, mapGet]

/-- Round trip on the well-formed class: flatten then unflatten restores the
tree exactly. -/
theorem flatten_unflatten_roundtrip {v : Value} (hobj : v.isObj = true)
    (hwf : wfV v = true) :
    (flatten v).bind unflatten = .ok v := by
  cases v with
  | obj o =>
    rw [flatten_spec hwf]
    simp only [Except.bind]
    exact unflatten_flatEntries hwf
  | null => simp [Value.isObj] at hobj
  | bool b => simp [Value.isObj] at hobj
  | num m => simp [Value.isObj] at hobj
  | str s => simp [Value.isObj] at hobj
  | arr l => simp [Value.isObj] at hobj

/-! ### The flatten recursion never fails below the top-level check -/

theorem flatten_value_ok {result : FlatMap} {pfx : String} {val : Value}
    (hobj : val.isObj = false) (harr : val.isArr = false) :
    ∃ r, flatten_value result pfx val = .ok r := by
  simp only [flatten_value, hobj, harr, Bool.or_self, Bool.false_eq_true,
    if_false]
  rcases mapGet result pfx with _ | v0
  · exact ⟨_, rfl⟩
  · cases v0 <;> exact ⟨_, rfl⟩

theorem flattenArrOk (n : Nat)
    (ih : ∀ v, sizeOf v ≤ n → ∀ result pfx,
      ∃ r, flattenChild result pfx v = .ok r) :
    ∀ (rest : List Value) (i : Nat) (result : FlatMap) (pfx : String),
      (∀ v' ∈ rest, sizeOf v' ≤ n) →
      ∃ r, flatten_array result pfx rest i = .ok r := by
  intro rest
  induction rest with
  | nil =>
    intro i result pfx _
    exact ⟨result, flatten_array_nil result pfx i⟩
  | cons v1 r' ihr =>
    intro i result pfx hsz
    rw [flatten_array_cons]
    obtain ⟨r1, h1⟩ := ih v1 (hsz v1 (List.mem_cons_self _ _)) result
      (pfx ++ "[" ++ String.mk (natDigits i) ++ "]")
    rw [h1]
    exact ihr (i + 1) r1 pfx (fun v' h => hsz v' (List.mem_cons_of_mem _ h))

theorem flattenObjOk (n : Nat)
    (ih : ∀ v, sizeOf v ≤ n → ∀ result pfx,
      ∃ r, flattenChild result pfx v = .ok r) :
    ∀ (rest : List (String × Value)) (result : FlatMap)
      (property : Option String),
      (∀ e' ∈ rest, sizeOf e'.2 ≤ n) →
      ∃ r, flatten_object result property rest = .ok r := by
  intro rest
  induction rest with
  | nil =>
    intro result property _
    exact ⟨result, flatten_object_nil result property⟩
  | cons kv r' ihr =>
    obtain ⟨k1, v1⟩ := kv
    intro result property hsz
    rw [flatten_object_cons]
    obtain ⟨r1, h1⟩ := ih v1 (hsz (k1, v1) (List.mem_cons_self _ _)) result
      (match property with
       | none => k1
       | some parent_key => parent_key ++ "." ++ k1)
    rw [h1]
    exact ihr r1 property (fun e' h => hsz e' (List.mem_cons_of_mem _ h))

theorem flattenChild_ok : ∀ n v, sizeOf v ≤ n → ∀ result pfx,
    ∃ r, flattenChild result pfx v = .ok r := by
  intro n
  induction n with
  | zero =>
    intro v hsz
    cases v <;> simp_all
  | succ n ih =>
    intro v hsz result pfx
    cases v with
    | null => exact flatten_value_ok rfl rfl
    | bool b => exact flatten_value_ok rfl rfl
    | num m => exact flatten_value_ok rfl rfl
    | str t => exact flatten_value_ok rfl rfl
    | arr l =>
      refine flattenArrOk n ih l 0 result pfx ?_
      intro v' hv'
      have := sizeOf_mem_arr (l := l) hv'
      omega
    | obj o =>
      refine flattenObjOk n ih o result (some pfx) ?_
      intro e' he'
      obtain ⟨ek, ev⟩ := e'
      show sizeOf ev ≤ n
      have := sizeOf_mem_obj (o := o) he'
      omega

theorem flatten_obj_ok (o : List (String × Value)) :
    ∃ r, flatten (.obj o) = .ok r := by
  simp only [flatten]
  by_cases he : o.isEmpty
  · rw [if_pos he]
    exact ⟨[], rfl⟩
  · rw [if_neg he]
    refine flattenObjOk (sizeOf o) (fun v hsz => flattenChild_ok _ v hsz)
      o [] none ?_
    intro e' he'
    obtain ⟨ek, ev⟩ := e'
    show sizeOf ev ≤ sizeOf o
    have h1 := List.sizeOf_lt_of_mem he'
    have h2 : sizeOf (ek, ev) = 1 + sizeOf ek + sizeOf ev := rfl
    omega

/-! ### Shape facts about the unflatten walk -/

theorem descend_obj_root {o : List (String × Value)} {p : String}
    {segs : List Seg} {leaf w : Value}
    (h : descend (.obj o) p segs leaf = .ok w) :
    ∃ o', w = .obj o' ∧ ∃ x, mapGet o' p = some x := by
  cases segs with
  | nil =>
    simp only [descend] at h
    obtain rfl := Except.ok.inj h
    exact ⟨_, rfl, _, mapGet_mapSet_self o p leaf⟩
  | cons seg rest =>
    rcases hg1 : mapGet o p with _ | c
    · rw [descend_cons_fresh (show slotFresh (Value.obj o) p from hg1)
        seg rest leaf] at h
      rcases hr : descend seg.childInit seg.text rest leaf with e | sub1
      all_goals rw [hr] at h
      · exact absurd h (by simp [Except.map])
      · simp only [Except.map] at h
        obtain rfl := Except.ok.inj h
        refine ⟨_, rfl, sub1, ?_⟩
        rw [mapGet_append_of_none hg1]
        simp [mapGet]
    · have hat : slotAt (.obj o) p = some c := hg1
      rw [descend_cons_present hat seg rest leaf] at h
      rcases hr : descend c seg.text rest leaf with e | sub1
      all_goals rw [hr] at h
      · exact absurd h (by simp [Except.map])
      · simp only [Except.map] at h
        obtain rfl := Except.ok.inj h
        exact ⟨_, rfl, sub1, mapGet_mapSet_self o p sub1⟩

theorem unflattenFold_root_present :
    ∀ (data : List (String × Value)) (o0 : List (String × Value))
      (root : Value), data ≠ [] →
      unflattenFold (.obj o0) data = .ok root →
      ∃ o', root = .obj o' ∧ ∃ x, mapGet o' "" = some x := by
  intro data
  induction data with
  | nil => intro o0 root hne; exact absurd rfl hne
  | cons hd tl ih =>
    obtain ⟨p, v⟩ := hd
    intro o0 root _ h
    simp only [unflattenFold] at h
    rcases hr : descend (.obj o0) "" (tokenize p.data) v with e | out1
    all_goals rw [hr] at h
    · exact absurd h (by simp)
    · obtain ⟨o1, rfl, x1, hx1⟩ := descend_obj_root hr
      cases tl with
      | nil =>
        simp only [unflattenFold] at h
        obtain rfl := Except.ok.inj h
        exact ⟨o1, rfl, x1, hx1⟩
      | cons hd2 tl2 =>
        exact ih o1 root (by simp) h

theorem descend_arr_shape {a : List Value} {p : String} {segs : List Seg}
    {leaf w : Value} (h : descend (.arr a) p segs leaf = .ok w) :
    w.isArr = true := by
  cases segs with
  | nil =>
    simp only [descend] at h
    obtain rfl := Except.ok.inj h
    rfl
  | cons seg rest =>
    simp only [descend] at h
    rcases hp : parseUsize p with _ | i
    · simp only [hp] at h
      exact Except.noConfusion h
    · simp only [hp] at h
      rcases hg : (if i < a.length then a else a ++ [seg.childInit]).get? i
        with _ | sub
      · simp only [hg] at h
        exact Except.noConfusion h
      · simp only [hg] at h
        rcases hr : descend sub seg.text rest leaf with e | sub1
        · simp only [hr] at h
          exact Except.noConfusion h
        · simp only [hr] at h
          obtain rfl := Except.ok.inj h
          rfl

theorem unflattenFold_singleton_arr :
    ∀ (data : List (String × Value)) (x : Value) (root : Value),
      x.isArr = true →
      (∀ e ∈ data, tokenize e.1.data ≠ []) →
      unflattenFold (.obj [("", x)]) data = .ok root →
      ∃ x', root = .obj [("", x')] ∧ x'.isArr = true := by
  intro data
  induction data with
  | nil =>
    intro x root hx _ h
    obtain rfl := Except.ok.inj h
    exact ⟨x, rfl, hx⟩
  | cons hd tl ih =>
    obtain ⟨p, v⟩ := hd
    intro x root hx hne h
    simp only [unflattenFold] at h
    obtain ⟨t, ts, hts⟩ : ∃ t ts, tokenize p.data = t :: ts := by
      rcases htok : tokenize p.data with _ | ⟨t, ts⟩
      · exact absurd htok (hne (p, v) (List.mem_cons_self _ _))
      · exact ⟨t, ts, rfl⟩
    rw [hts] at h
    have hat : slotAt (Value.obj [("", x)]) "" = some x := by
      simp [slotAt, mapGet]
    rw [descend_cons_present hat t ts v] at h
    rcases hr : descend x t.text ts v with e | x1
    all_goals rw [hr] at h
    · exact absurd h (by simp [Except.map])
    · simp only [Except.map] at h
      have hx1 : x1.isArr = true := by
        cases x with
        | arr a => exact descend_arr_shape hr
        | null => simp [Value.isArr] at hx
        | bool b => simp [Value.isArr] at hx
        | num m => simp [Value.isArr] at hx
        | str s => simp [Value.isArr] at hx
        | obj oo => simp [Value.isArr] at hx
      have hset : slotSet (Value.obj [("", x)]) "" x1 =
          Value.obj [("", x1)] := by
        simp [slotSet, mapSet]
      rw [hset] at h
      exact ih x1 root hx1 (fun e he => hne e (List.mem_cons_of_mem _ he)) h

/-! ### The claims -/

/-- C1 (counterexample): the round trip fails on the empty object, because
`flatten {}` is the empty flat map and `unflatten {}` is `InvalidProperty`,
not the empty object. -/
theorem claim_C1_counterexample :
    (flatten (Value.obj [])).bind unflatten = .error .InvalidProperty := rfl

/-- C1 (amended): for every tree whose top level is an Object and which is
well-formed — every contained object is nonempty with distinct, nonempty,
separator-free keys, every contained array is nonempty and of `usize` size,
and all leaves are scalars — `unflatten (flatten T)` succeeds and returns a
value equal to `T`. -/
theorem claim_C1 (v : Value) (hobj : Value.isObj v = true)
    (hwf : wfV v = true) : (flatten v).bind unflatten = .ok v :=
  flatten_unflatten_roundtrip hobj hwf

/-- Witness for C1 at the concrete tree `{"a": "b"}`. -/
theorem claim_C1_witness :
    (flatten (Value.obj [("a", Value.str "b")])).bind unflatten =
      .ok (Value.obj [("a", Value.str "b")]) :=
  claim_C1 (Value.obj [("a", Value.str "b")]) rfl
    (by simp [wfV, wfO, nodupKeys, goodKey, mapGet, notSep, isSep])

/-- C2: the claim says `unflatten {"x[[": "v"}` returns an error; the code
instead returns `Ok {"x": "v"}`, silently dropping the malformed `[[`.
`captures_iter` skips spans that match neither alternative, so the
`InvalidProperty` arm of the tokenizing loop is unreachable. This theorem
evaluates the code at the failing input. -/
theorem claim_C2 :
    unflatten [("x[[", Value.str "v")] = .ok (Value.obj [("x", Value.str "v")]) := by
  simp [unflatten, unflattenFold, descend, tokenize, notSep, isSep, isDigitC,
    mapGet, mapSet, Seg.text, Seg.childInit, valueGet]

/-- C3 (counterexample): `unflatten {}` does not return the empty Object;
the synthetic root key is only created while processing an entry, so on the
empty map the final root lookup fails with `InvalidProperty`. -/
theorem claim_C3_counterexample : unflatten [] = .error .InvalidProperty := rfl

/-- C3 (amended): `flatten {}` is the empty flat map; `unflatten {}` is the
`InvalidProperty` error, and that final missing-root error is reachable
exactly on the empty flat map: for nonempty input whose per-entry processing
succeeds, the root value under the synthetic empty key always exists. -/
theorem claim_C3 :
    flatten (Value.obj []) = .ok [] ∧
    unflatten [] = .error .InvalidProperty ∧
    (∀ (data : List (String × Value)) (root : Value), data ≠ [] →
      unflattenFold (Value.obj []) data = .ok root →
      ∃ x, valueGet root "" = some x) := by
  refine ⟨rfl, rfl, ?_⟩
  intro data root hne h
  obtain ⟨o', rfl, x, hx⟩ := unflattenFold_root_present data [] root hne h
  exact ⟨x, hx⟩

/-- Witness for C3's third conjunct at the singleton map `{"a": "b"}`. -/
theorem claim_C3_witness :
    ∃ x, valueGet (Value.obj [("", Value.obj [("a", Value.str "b")])]) ""
      = some x :=
  claim_C3.2.2 [("a", Value.str "b")] _ (by simp)
    (by simp [unflattenFold, descend, tokenize, notSep, isSep, isDigitC,
      mapGet, mapSet, Seg.text, Seg.childInit])

/-- C4: inserting a scalar under an already-present path pushes onto an
existing array, else merges into the 2-array `[old, new]`; a fresh path is
appended; and a third colliding scalar appends to the merged array rather
than nesting, preserving encounter order. -/
theorem claim_C4 (result : FlatMap) (property : String) (val : Value)
    (hobj : val.isObj = false) (harr : val.isArr = false) :
    (∀ a, mapGet result property = some (.arr a) →
      flatten_value result property val =
        .ok (mapSet result property (.arr (a ++ [val])))) ∧
    (∀ v0, mapGet result property = some v0 → v0.isArr = false →
      flatten_value result property val =
        .ok (mapSet result property (.arr [v0, val]))) ∧
    (mapGet result property = none →
      flatten_value result property val = .ok (result ++ [(property, val)])) ∧
    (∀ v2 v3, v3.isObj = false → v3.isArr = false →
      flatten_value [(property, Value.arr [val, v2])] property v3 =
        .ok [(property, Value.arr [val, v2, v3])]) := by
  refine ⟨?_, ?_, ?_, ?_⟩
  · intro a hg
    simp [flatten_value, hobj, harr, hg]
  · intro v0 hg h0
    cases v0 <;> simp_all [flatten_value, Value.isArr]
  · intro hg
    simp [flatten_value, hobj, harr, hg]
  · intro v2 v3 h3o h3a
    simp [flatten_value, h3o, h3a, mapGet, mapSet]

/-- Witness for C4: second collision on path `x` merges into a 2-array. -/
theorem claim_C4_witness :
    flatten_value [("x", Value.str "a")] "x" (Value.str "b") =
      .ok (mapSet [("x", Value.str "a")] "x"
        (Value.arr [Value.str "a", Value.str "b"])) :=
  (claim_C4 [("x", Value.str "a")] "x" (Value.str "b") rfl rfl).2.1
    (Value.str "a") rfl rfl

/-- C5: during the unflatten walk, a missing slot is created as the empty
container dictated by the lookahead token — an Array for a bracketed index,
an Object otherwise — while an existing slot is descended into and written
back, never replaced by the fresh container; so paths sharing a prefix
reuse the node the first path created. -/
theorem claim_C5 (o : List (String × Value)) (a : List Value) (p : String)
    (c : Value) (t : Seg) (ts : List Seg) (leaf : Value) (i : Nat)
    (ds ks : List Char) :
    (mapGet o p = none →
      descend (.obj o) p (t :: ts) leaf =
        (descend t.childInit t.text ts leaf).map
          (fun r => Value.obj (o ++ [(p, r)]))) ∧
    ((Seg.idx ds).childInit = Value.arr [] ∧
      (Seg.key ks).childInit = Value.obj []) ∧
    (mapGet o p = some c →
      descend (.obj o) p (t :: ts) leaf =
        (descend c t.text ts leaf).map (fun r => Value.obj (mapSet o p r))) ∧
    (parseUsize p = some i → a.get? i = some c →
      descend (.arr a) p (t :: ts) leaf =
        (descend c t.text ts leaf).map (fun r => Value.arr (a.set i r))) ∧
    unflatten [("a.b", Value.str "v"), ("a.c", Value.str "w")] =
      .ok (Value.obj [("a", Value.obj [("b", Value.str "v"),
        ("c", Value.str "w")])]) := by
  refine ⟨?_, ⟨rfl, rfl⟩, ?_, ?_, ?_⟩
  · intro h
    rw [descend_cons_fresh (show slotFresh (Value.obj o) p from h) t ts leaf]
    exact exceptMap_congr (fun x => rfl)
  · intro h
    rw [descend_cons_present (show slotAt (Value.obj o) p = some c from h)
      t ts leaf]
    exact exceptMap_congr (fun x => rfl)
  · intro hp hg
    rw [descend_cons_present
      (show slotAt (Value.arr a) p = some c from by
        rw [List.get?_eq_getElem?] at hg
        simp [slotAt, hp, hg])
      t ts leaf]
    exact exceptMap_congr (fun x => by simp [slotSet, hp])
  · simp [unflatten, unflattenFold, descend, tokenize, notSep, isSep,
      isDigitC, mapGet, mapSet, Seg.text, Seg.childInit, valueGet]

/-- Witness for C5: a fresh object key is created by lookahead. -/
theorem claim_C5_witness :
    descend (Value.obj []) "" [Seg.key ['a']] (Value.str "v") =
      (descend (Seg.key ['a']).childInit (Seg.key ['a']).text []
        (Value.str "v")).map (fun r => Value.obj ([] ++ [("", r)])) :=
  (claim_C5 [] [] "" Value.null (Seg.key ['a']) [] (Value.str "v") 0
    [] []).1 rfl

/-- C6: a leaf whose final segment is a bracketed index is pushed at the
current end of the array whatever the index says; a non-final index beyond
the current length is a `FormatError`, never a gap fill; so out-of-order
indices yield append-order results. -/
theorem claim_C6 (a : List Value) (p : String) (leaf : Value) (t : Seg)
    (ts : List Seg) (i : Nat) :
    (descend (.arr a) p [] leaf = .ok (.arr (a ++ [leaf]))) ∧
    (parseUsize p = some i → a.length < i →
      descend (.arr a) p (t :: ts) leaf = .error .FormatError) ∧
    unflatten [("x[5]", Value.str "a"), ("x[0]", Value.str "b")] =
      .ok (Value.obj [("x", Value.arr [Value.str "a", Value.str "b"])]) := by
  refine ⟨rfl, ?_, ?_⟩
  · intro hp hlt
    simp only [descend, hp]
    rw [if_neg (by omega)]
    rw [List.get?_eq_getElem?, List.getElem?_eq_none (by simp; omega)]
  · simp [unflatten, unflattenFold, descend, tokenize, notSep, isSep,
      isDigitC, mapGet, mapSet, Seg.text, Seg.childInit, valueGet,
      show parseUsize "5" = some 5 from rfl,
      show parseUsize "0" = some 0 from rfl]

/-- Witness for C6: the gap index 5 on an empty array is a `FormatError`. -/
theorem claim_C6_witness :
    descend (Value.arr []) "5" [Seg.key ['a']] (Value.str "v") =
      .error .FormatError :=
  (claim_C6 [] "5" (Value.str "v") (Seg.key ['a']) [] 5).2.1 rfl
    (by decide)

/-- C7: `flatten` returns `NotAnObject` exactly when the top level is not an
Object: every non-Object input yields that error, and an Object input never
does. -/
theorem claim_C7 :
    (∀ v, Value.isObj v = false → flatten v = .error .NotAnObject) ∧
    (∀ o, flatten (Value.obj o) ≠ .error .NotAnObject) := by
  constructor
  · intro v h
    cases v with
    | obj o => simp [Value.isObj] at h
    | null => rfl
    | bool b => rfl
    | num m => rfl
    | str s => rfl
    | arr l => rfl
  · intro o
    obtain ⟨r, hr⟩ := flatten_obj_ok o
    rw [hr]
    simp

/-- Witness for C7: a bare string input is rejected as `NotAnObject`. -/
theorem claim_C7_witness :
    flatten (Value.str "s") = .error .NotAnObject :=
  claim_C7.1 (Value.str "s") rfl

/-- C8: the `NotAValue` branch is unreachable: on every input `flatten`
never returns `NotAValue`, because the recursive dispatch only reaches the
scalar-insertion step with non-container values. -/
theorem claim_C8 (v : Value) : flatten v ≠ .error .NotAValue := by
  cases v with
  | obj o =>
    obtain ⟨r, hr⟩ := flatten_obj_ok o
    rw [hr]
    simp
  | null => simp [flatten]
  | bool b => simp [flatten]
  | num m => simp [flatten]
  | str s => simp [flatten]
  | arr l => simp [flatten]

/-- C9 (counterexample): a flat map produced by this very `flatten` — from
the legal JSON object `{"a[1]": {"x": "v"}}`, whose key contains brackets —
makes `unflatten` return `FormatError`. -/
theorem claim_C9_counterexample :
    flatten (Value.obj [("a[1]", Value.obj [("x", Value.str "v")])]) =
      .ok [("a[1].x", Value.str "v")] ∧
    unflatten [("a[1].x", Value.str "v")] = .error .FormatError := by
  constructor
  · simp [flatten, flatten_object_cons, flatten_object_nil, flattenChild,
      flatten_value, mapGet, Value.isObj, Value.isArr]
  · simp [unflatten, unflattenFold, descend, tokenize, notSep, isSep,
      isDigitC, mapGet, mapSet, Seg.text, Seg.childInit, valueGet,
      show parseUsize "1" = some 1 from rfl]

/-- C9 (amended): for flat maps that `flatten` produced from a well-formed
tree (top-level Object; nonempty containers; distinct, nonempty,
separator-free keys; scalar leaves), `unflatten` returns neither
`FormatError` nor `Unspecified` — it succeeds outright. -/
theorem claim_C9 (v : Value) (m : FlatMap) (hobj : Value.isObj v = true)
    (hwf : wfV v = true) (hm : flatten v = .ok m) :
    unflatten m ≠ .error .FormatError ∧
    unflatten m ≠ .error .Unspecified := by
  have hr := flatten_unflatten_roundtrip hobj hwf
  rw [hm] at hr
  simp only [Except.bind] at hr
  rw [hr]
  exact ⟨by simp, by simp⟩

/-- Witness for C9 at the tree `{"a": "b"}`. -/
theorem claim_C9_witness :
    unflatten [("a", Value.str "b")] ≠ .error .FormatError ∧
    unflatten [("a", Value.str "b")] ≠ .error .Unspecified :=
  claim_C9 (Value.obj [("a", Value.str "b")]) [("a", Value.str "b")] rfl
    (by simp [wfV, wfO, nodupKeys, goodKey, mapGet, notSep, isSep])
    (by simp [flatten, flatten_object_cons, flatten_object_nil, flattenChild,
      flatten_value, mapGet, Value.isObj, Value.isArr])

/-- C10 (counterexample): the claim as stated fails — after a first path
with a bracketed first segment, a later path that tokenizes to no segments
(here `"]"`) replaces the synthetic root slot, so `unflatten` returns a
non-Array. -/
theorem claim_C10_counterexample :
    unflatten [("[0]", Value.str "a"), ("]", Value.str "s")] =
      .ok (Value.str "s") ∧
    Value.isArr (Value.str "s") = false := by
  refine ⟨?_, rfl⟩
  simp [unflatten, unflattenFold, descend, tokenize, notSep, isSep,
    isDigitC, mapGet, mapSet, Seg.text, Seg.childInit, valueGet,
    show parseUsize "0" = some 0 from rfl]

/-- C10 (amended): if the first path's first segment is a bracketed index
and every other path tokenizes to at least one segment, a successful
`unflatten` returns an Array; in particular `unflatten {"[0]": v}` is the
one-element array `[v]`. -/
theorem claim_C10 :
    (∀ (p : String) (v : Value) (rest : List (String × Value))
      (ds : List Char) (ts : List Seg) (w : Value),
      tokenize p.data = Seg.idx ds :: ts →
      (∀ e ∈ rest, tokenize e.1.data ≠ []) →
      unflatten ((p, v) :: rest) = .ok w →
      Value.isArr w = true) ∧
    unflatten [("[0]", Value.str "v")] = .ok (Value.arr [Value.str "v"]) := by
  constructor
  · intro p v rest ds ts w hp hrest hok
    simp only [unflatten] at hok
    rcases hu : unflattenFold (Value.obj []) ((p, v) :: rest) with e | root
    · rw [hu] at hok
      exact Except.noConfusion hok
    · rw [hu] at hok
      simp only [unflattenFold, hp] at hu
      rw [descend_cons_fresh (show slotFresh (Value.obj []) "" from rfl)
        (Seg.idx ds) ts v] at hu
      rcases hr : descend (Seg.idx ds).childInit (Seg.idx ds).text ts v
          with e1 | c1
      · simp only [hr, Except.map] at hu
        exact Except.noConfusion hu
      · simp only [hr, Except.map, slotAppend_obj, List.nil_append] at hu
        have hc1 : c1.isArr = true :=
          descend_arr_shape (show descend (Value.arr [])
            (Seg.idx ds).text ts v = .ok c1 from hr)
        obtain ⟨x', rfl, hx'⟩ :=
          unflattenFold_singleton_arr rest c1 root hc1 hrest hu
        simp only [valueGet, mapGet, if_pos rfl] at hok
        obtain rfl := Except.ok.inj hok
        exact hx'
  · simp [unflatten, unflattenFold, descend, tokenize, notSep, isSep,
      isDigitC, mapGet, mapSet, Seg.text, Seg.childInit, valueGet,
      show parseUsize "0" = some 0 from rfl]

/-- Witness for C10's general part at `{"[0]": "a", "x": "b"}`: the result
is the array `["a", "b"]`. -/
theorem claim_C10_witness :
    Value.isArr (Value.arr [Value.str "a", Value.str "b"]) = true :=
  claim_C10.1 "[0]" (Value.str "a") [("x", Value.str "b")] ['0'] []
    (Value.arr [Value.str "a", Value.str "b"])
    (by simp [tokenize, notSep, isSep, isDigitC])
    (by
      intro e he
      simp only [List.mem_singleton] at he
      rw [he]
      simp [tokenize, notSep, isSep, isDigitC])
    (by simp [unflatten, unflattenFold, descend, tokenize, notSep, isSep,
      isDigitC, mapGet, mapSet, Seg.text, Seg.childInit, valueGet,
      show parseUsize "0" = some 0 from rfl])

end JsonUnflattening
